import Mathlib

/-!
Verification of the mapache/backup repository specification against a shallow
embedding of its Rust sources.

Conventions used throughout this development:
* Machine integers (`usize`, `u32`, `u64`) are modelled as `Nat`; none of the
  modelled code paths rely on wrap-around.
* Byte strings are `List Nat`.
* Content IDs (SHA-256 digests in the source) are modelled as an abstract
  value produced by an abstract hash function carried in a context structure;
  for concrete evaluations the hash is instantiated with an injective
  concrete function. `ID` is modelled as `List Nat`.
* `Instant` / `Duration` are modelled as `Nat` (seconds); `elapsed` becomes
  truncated subtraction, matching the saturating behaviour of `Instant`.
* Rust `HashMap` / `HashSet` are modelled as association lists with
  insert-replaces-existing-key semantics; `BTreeMap.pop_first` becomes taking
  the head of a list sorted by key.
* A Rust `Vec` used as a stack (push/pop at the end, `last()` peeks) is
  modelled as a Lean list with the top of the stack at the head.
-/

namespace Backup

/-! ## storage.rs: the chunk based store and restore pipeline (claim C1) -/

/-- Chunk size table of `get_chunk_size` in src/storage.rs, translated
threshold by threshold. -/
def get_chunk_size (file_size : Nat) : Nat :=
  if file_size > 4 * 1024 * 1024 * 1024 then 256 * 1024 * 1024
  else if file_size > 1 * 1024 * 1024 * 1024 then 64 * 1024 * 1024
  else if file_size > 256 * 1024 * 1024 then 16 * 1024 * 1024
  else if file_size > 64 * 1024 * 1024 then 4 * 1024 * 1024
  else if file_size > 16 * 1024 * 1024 then 1 * 1024 * 1024
  else if file_size > 4 * 1024 * 1024 then 256 * 1024
  else if file_size > 1 * 1024 * 1024 then 64 * 1024
  else if file_size > 256 * 1024 then 16 * 1024
  else 4 * 1024

/-- The sequence of chunks delivered by the read loop of `store_file`:
successive reads of `cs` bytes, with a shorter final chunk.  A read with a
zero-sized buffer returns zero bytes, which terminates the loop at once,
matching the `cs = 0` branch. -/
def splitChunks (cs : Nat) : List Nat → List (List Nat)
  | [] => []
  | a :: d =>
    if cs = 0 then []
    else ((a :: d).take cs) :: splitChunks cs ((a :: d).drop cs)
  termination_by d => d.length
  decreasing_by
    simp only [List.length_drop, List.length_cons]
    omega

/-- The repository's chunk store: hash key to stored chunk plaintext.  The
secure-storage envelope applied by `save_to_file` and undone by
`load_from_file` is abstracted away (the store holds the chunk plaintext);
the hex dir/file split of the hash string does not affect which chunk a hash
denotes, so a chunk is keyed by its full hash value. -/
abbrev ChunkStore := List (List Nat × List Nat)

def ChunkStore.containsKey (s : ChunkStore) (k : List Nat) : Bool :=
  s.any (fun e => e.1 == k)

def ChunkStore.getChunk (s : ChunkStore) (k : List Nat) : Option (List Nat) :=
  (s.find? (fun e => e.1 == k)).map (·.2)

/-- Result record of `store_file` (`StorageResult`). -/
structure StorageResult where
  chunk_hashes : List (List Nat)
  bytes_read : Nat
  bytes_stored : Nat
deriving Repr, DecidableEq

/-- Body of the `store_file` read loop in src/storage.rs, one iteration per
chunk: an all-zero chunk is skipped entirely (not recorded in the returned
chunk list and not stored); otherwise the chunk hash is recorded and the
chunk is stored if not already present. `bytes_stored` counts stored
(encoded) bytes; the encoded size is abstracted as the chunk length. -/
def storeChunks (hash : List Nat → List Nat) :
    List (List Nat) → ChunkStore → (List (List Nat) × Nat × Nat × ChunkStore)
  | [], store => ([], 0, 0, store)
  | chunk :: rest, store =>
    if chunk.all (fun b => b == 0) then
      storeChunks hash rest store
    else
      let h := hash chunk
      let (store, stored) :=
        if store.containsKey h then (store, 0)
        else ((h, chunk) :: store, chunk.length)
      let (hs, bt, bs, store) := storeChunks hash rest store
      (h :: hs, chunk.length + bt, stored + bs, store)

/-- `store_file` of src/storage.rs: split the source bytes into chunks of
`get_chunk_size (file length)` bytes and run the storing loop. -/
def store_file (hash : List Nat → List Nat) (store : ChunkStore)
    (data : List Nat) : StorageResult × ChunkStore :=
  let cs := get_chunk_size data.length
  let (hs, bt, bs, store) := storeChunks hash (splitChunks cs data) store
  (⟨hs, bt, bs⟩, store)

/-- Delta variant of a file entry in a snapshot (src/backup.rs). -/
inductive Delta where
  | Deleted : Delta
  | Chunks : List (List Nat) → Delta
deriving DecidableEq

/-- The chunk loop of `restore_file`: look every recorded chunk hash up in
the store and concatenate the chunk contents in order; a missing chunk is
an error (`none`). -/
def restoreChunks (store : ChunkStore) : List (List Nat) → Option (List Nat)
  | [] => some []
  | h :: hs => do
    let c ← store.getChunk h
    let rest ← restoreChunks store hs
    pure (c ++ rest)

/-- `restore_file` of src/storage.rs: a `Deleted` delta is an error,
otherwise the recorded chunks are loaded and concatenated. -/
def restore_file (store : ChunkStore) : Delta → Option (List Nat)
  | Delta.Deleted => none
  | Delta.Chunks hs => restoreChunks store hs

/-! ## io.rs: the SecureStorage encryption envelope (claim C4) -/

/-- Modelled from the spec: the external cryptographic primitives used by
src/io.rs (the argon2 and aes_gcm crates are not part of this repository).
`derive_key` maps password and salt to a 32-byte key (Argon2id);
`aead_encrypt` maps key, nonce and plaintext to ciphertext followed by the
authentication tag; `aead_decrypt` inverts it, returning `none` on tag
mismatch. -/
structure AeadModel where
  derive_key : List Nat → List Nat → List Nat
  aead_encrypt : List Nat → List Nat → List Nat → List Nat
  aead_decrypt : List Nat → List Nat → List Nat → Option (List Nat)

/-- SALT_LENGTH of src/io.rs. -/
def SALT_LENGTH : Nat := 16

/-- `SecureStorage::encrypt` of src/io.rs with the two random draws (the
16-byte salt and the 12-byte nonce) passed explicitly: the function returns
the concatenation salt, then nonce, then AEAD output. -/
def SecureStorage.encrypt (m : AeadModel) (password salt nonce data : List Nat) :
    List Nat :=
  salt ++ nonce ++ m.aead_encrypt (m.derive_key password salt) nonce data

/-- `SecureStorage::decrypt` of src/io.rs: read the salt from the first 16
bytes, derive the key, split the nonce from the next 12 bytes and decrypt
the remainder. -/
def SecureStorage.decrypt (m : AeadModel) (password data : List Nat) :
    Option (List Nat) :=
  m.aead_decrypt
    (m.derive_key password (data.take SALT_LENGTH))
    ((data.drop SALT_LENGTH).take 12)
    ((data.drop SALT_LENGTH).drop 12)

/-! ## fuse/cache.rs: the BlobCache eviction loop (claim C9) -/

/-- State of the `BlobCache` relevant to the eviction loop of
`BlobCache::load`: current total size, the timestamp-to-ID `order_map`
(modelled as a list sorted by timestamp, head first, so `pop_first` takes
the head) and the blob map with per-blob data and timestamp. -/
structure BlobCacheState where
  size : Nat
  order_map : List (Nat × List Nat)
  blobs : List (List Nat × (List Nat × Nat))
deriving Repr, DecidableEq

/-- One iteration of the eviction loop body: pop the least-recently-used
entry if one exists and subtract its data length from the size; when the
order map is empty the `if let` does nothing and the state is unchanged. -/
def BlobCacheState.evictOnce (st : BlobCacheState) : BlobCacheState :=
  match st.order_map with
  | [] => st
  | (_ts, lru_id) :: rest =>
    match st.blobs.find? (fun e => e.1 == lru_id) with
    | some (_, (data, _)) =>
      { size := st.size - data.length
        order_map := rest
        blobs := st.blobs.filter (fun e => !(e.1 == lru_id)) }
    | none => { st with order_map := rest }

/-- The eviction `while` loop of `BlobCache::load`, run with explicit fuel:
`some st` means the loop exited with final state `st` within `fuel`
iterations; `none` means the guard was still true after `fuel` iterations.
`blob_indexed_size` is the indexed encoded size of the requested blob and
`capacity` the cache capacity. -/
def evictLoop (capacity blob_indexed_size : Nat) :
    Nat → BlobCacheState → Option BlobCacheState
  | 0, st => if st.size + blob_indexed_size > capacity then none else some st
  | fuel + 1, st =>
    if st.size + blob_indexed_size > capacity then
      evictLoop capacity blob_indexed_size fuel st.evictOnce
    else
      some st

/-! ## repository/gc.rs: the plan-phase kept-size scan (claim C8) -/

/-- DEFAULT_PACK_SIZE of src/global/defaults.rs: 16 MiB (the f32 expression
16.0 * 1048576.0 is exact). -/
def DEFAULT_PACK_SIZE : Nat := 16 * 1024 * 1024

/-- Location data of one indexed blob as iterated by `iter_ids` during the
GC scan (`BlobLocator`): owning pack and encoded length (offset and raw
length do not participate in the scan sums). -/
structure GcLocator where
  pack_id : List Nat
  length : Nat
deriving Repr, DecidableEq

/-- `HashMap::entry(k).and_modify(f).or_default()`: apply `f` to the stored
value when the key is present, otherwise insert the default value 0. -/
def andModifyOrDefault (m : List (List Nat × Nat)) (k : List Nat) (f : Nat → Nat) :
    List (List Nat × Nat) :=
  if m.any (fun e => e.1 == k) then
    m.map (fun e => if e.1 == k then (e.1, f e.2) else e)
  else
    m ++ [(k, 0)]

/-- `HashMap::entry(k).and_modify(f).or_insert(v)`: apply `f` to the stored
value when the key is present, otherwise insert `v`. -/
def andModifyOrInsert (m : List (List Nat × Nat)) (k : List Nat) (f : Nat → Nat)
    (v : Nat) : List (List Nat × Nat) :=
  if m.any (fun e => e.1 == k) then
    m.map (fun e => if e.1 == k then (e.1, f e.2) else e)
  else
    m ++ [(k, v)]

/-- The first loop of `scan` in src/repository/gc.rs over all indexed blobs:
accumulates `kept_pack_size` via and_modify plus or_default (so a pack's
first-seen blob inserts 0) for every blob, and `pack_garbage` via and_modify
plus or_insert(length) for blobs that are not referenced. -/
def scanSizes (entries : List (List Nat × GcLocator)) (referenced : List (List Nat)) :
    List (List Nat × Nat) × List (List Nat × Nat) :=
  entries.foldl
    (fun (acc : List (List Nat × Nat) × List (List Nat × Nat)) e =>
      let (kept, garbage) := acc
      let (id, loc) := e
      let kept := andModifyOrDefault kept loc.pack_id (fun s => s + loc.length)
      let garbage :=
        if referenced.any (fun r => r == id) then garbage
        else andModifyOrInsert garbage loc.pack_id (fun s => s + loc.length) loc.length
      (kept, garbage))
    ([], [])

/-- The small-pack classification of `scan`: a pack is marked small when its
accumulated `kept_pack_size` is below DEFAULT_PACK_SIZE times the minimum
size factor 0.05.  The f32 test `size / 16777216.0 < 0.05` is modelled by
the exact rational inequality `20 * size < 16777216`; the two agree except
within one float ulp of the threshold, far from the sizes considered here. -/
def smallPacks (kept : List (List Nat × Nat)) : List (List Nat) :=
  (kept.filter (fun e => 20 * e.2 < DEFAULT_PACK_SIZE)).map (·.1)

/-- Stated from the claim's words, for comparison with the code: the kept
size of a pack as the claim defines it, namely the sum of the indexed
lengths of that pack's kept (referenced) blobs. -/
def claimKeptSize (entries : List (List Nat × GcLocator)) (referenced : List (List Nat))
    (pack : List Nat) : Nat :=
  (entries.filter
      (fun e => e.2.pack_id == pack && referenced.any (fun r => r == e.1))).foldl
    (fun s e => s + e.2.length) 0

/-! ## repository/index.rs and repository/repo.rs: the mapache core
    (claims C2, C3, C7, C10) -/

/-- Blob content IDs of the mapache core, modelled as byte lists.  In the
source an ID is a 32-byte SHA-256 digest; the hash itself is abstracted in
`RepoCtx`. -/
abbrev ID := List Nat

/-- Blob type tag (src/global). -/
inductive BlobType where
  | Data : BlobType
  | Tree : BlobType
  | Padding : BlobType
deriving Repr, DecidableEq

/-- `SaveID` of src/global: either compute the ID from the content or use a
caller-supplied one. -/
inductive SaveID where
  | CalculateID : SaveID
  | WithID : ID → SaveID
deriving DecidableEq

/-- `PackedBlobDescriptor` as consumed by src/repository/index.rs (declared
in the packer module): blob ID, type, offset and lengths inside a pack. -/
structure PackedBlobDescriptor where
  id : ID
  blob_type : BlobType
  offset : Nat
  length : Nat
  raw_length : Nat
deriving Repr, DecidableEq

/-- `BlobLocation` of src/repository/index.rs: position of a blob inside a
pack, with the pack referenced through its array index in the owning
Index's pack-ID set. -/
structure BlobLocation where
  pack_array_index : Nat
  offset : Nat
  length : Nat
  raw_length : Nat
deriving Repr, DecidableEq

/-- Modelled from the spec: `utils::indexset::IndexSet` (not under src/), an
insertion-ordered set that hands out stable small integer indices for its
elements.  It is modelled as a list of optional IDs: `insert` returns the
position of an existing element or appends, `get_value` reads by position,
and `remove` blanks the position so the indices of the other elements stay
valid. -/
abbrev IndexSet := List (Option ID)

def IndexSet.insertIdx (s : IndexSet) (x : ID) : Nat × IndexSet :=
  match s.findIdx? (fun e => e == some x) with
  | some i => (i, s)
  | none => (s.length, s ++ [some x])

def IndexSet.get_value (s : IndexSet) (i : Nat) : Option ID :=
  (s.get? i).bind id

def IndexSet.removeId (s : IndexSet) (x : ID) : IndexSet :=
  s.map (fun e => if e == some x then none else e)

def IndexSet.values (s : IndexSet) : List ID :=
  s.filterMap id

/-- BLOBS_PER_INDEX_FILE of src/global/defaults.rs. -/
def BLOBS_PER_INDEX_FILE : Nat := 65535

/-- INDEX_FLUSH_TIMEOUT of src/global/defaults.rs, in seconds. -/
def INDEX_FLUSH_TIMEOUT : Nat := 10 * 60

/-- A blob map inside an Index (`data_ids` / `tree_ids`), an association
list with HashMap semantics: `insert` replaces the value of an existing
key. -/
abbrev BlobMap := List (ID × BlobLocation)

def BlobMap.containsKey (m : BlobMap) (k : ID) : Bool :=
  m.any (fun e => e.1 == k)

def BlobMap.getLoc (m : BlobMap) (k : ID) : Option BlobLocation :=
  (m.find? (fun e => e.1 == k)).map (·.2)

def BlobMap.insert (m : BlobMap) (k : ID) (v : BlobLocation) : BlobMap :=
  if m.containsKey k then
    m.map (fun e => if e.1 == k then (k, v) else e)
  else
    m ++ [(k, v)]

/-- `Index` of src/repository/index.rs. -/
structure Index where
  data_ids : BlobMap
  tree_ids : BlobMap
  pack_ids : IndexSet
  is_pending : Bool
  create_time : Nat
  id : Option ID
deriving Repr, DecidableEq

/-- `Index::new` at creation instant `now`. -/
def Index.new (now : Nat) : Index :=
  { data_ids := [], tree_ids := [], pack_ids := []
    is_pending := true, create_time := now, id := none }

def Index.finalize (idx : Index) : Index := { idx with is_pending := false }

def Index.set_pending (idx : Index) : Index :=
  { idx with is_pending := true, id := none }

def Index.num_blobs (idx : Index) : Nat :=
  idx.data_ids.length + idx.tree_ids.length

def Index.num_packs (idx : Index) : Nat :=
  idx.pack_ids.values.length

def Index.is_empty (idx : Index) : Bool :=
  idx.num_blobs == 0 && idx.num_packs == 0

/-- `Index::is_full` at instant `now`: at least BLOBS_PER_INDEX_FILE blobs,
or created at least INDEX_FLUSH_TIMEOUT ago. -/
def Index.is_full (idx : Index) (now : Nat) : Bool :=
  idx.num_blobs ≥ BLOBS_PER_INDEX_FILE
    || now - idx.create_time ≥ INDEX_FLUSH_TIMEOUT

/-- `Index::contains`. -/
def Index.containsBlob (idx : Index) (i : ID) : Bool :=
  idx.data_ids.containsKey i || idx.tree_ids.containsKey i

/-- `Index::get`: data map first, then tree map, resolving the pack array
index through the pack-ID set. -/
def Index.getBlob (idx : Index) (i : ID) : Option (ID × BlobType × Nat × Nat × Nat) :=
  match idx.data_ids.getLoc i with
  | some loc =>
    (idx.pack_ids.get_value loc.pack_array_index).map
      (fun pid => (pid, BlobType.Data, loc.offset, loc.length, loc.raw_length))
  | none =>
    match idx.tree_ids.getLoc i with
    | some loc =>
      (idx.pack_ids.get_value loc.pack_array_index).map
        (fun pid => (pid, BlobType.Tree, loc.offset, loc.length, loc.raw_length))
    | none => none

/-- `Index::add_pack`: insert the pack ID once, then add every non-Padding
descriptor to the matching blob map. -/
def Index.addPack (idx : Index) (pack_id : ID)
    (descriptors : List PackedBlobDescriptor) : Index :=
  let (pack_index, pack_ids) := idx.pack_ids.insertIdx pack_id
  descriptors.foldl
    (fun idx blob =>
      let loc : BlobLocation :=
        { pack_array_index := pack_index, offset := blob.offset
          length := blob.length, raw_length := blob.raw_length }
      match blob.blob_type with
      | BlobType.Data => { idx with data_ids := idx.data_ids.insert blob.id loc }
      | BlobType.Tree => { idx with tree_ids := idx.tree_ids.insert blob.id loc }
      | BlobType.Padding => idx)
    { idx with pack_ids := pack_ids }

/-- `Index::remove_pack`: drop every blob located in the target pack, then
remove the pack from the pack-ID set. -/
def Index.removePack (idx : Index) (target : ID) : Index :=
  let locatedInTarget : BlobLocation → Bool :=
    fun loc => idx.pack_ids.get_value loc.pack_array_index == some target
  { idx with
    data_ids := idx.data_ids.filter (fun e => !(locatedInTarget e.2))
    tree_ids := idx.tree_ids.filter (fun e => !(locatedInTarget e.2))
    pack_ids := idx.pack_ids.removeId target }

/-- Context of abstract operations a Repository performs, carrying the
external SHA-256 hash (`ID::from_content`), the secure-storage envelope
`encode` of the missing repository/storage.rs (per the spec: zstd
compression followed by AES-256-GCM encryption; only its length matters
here), and the abstractions of pack assembly performed by the missing
packer module (per the spec: pack ID is the hash of the assembled pack
body, `meta_size` the size of its encoded trailer).  Index files written by
`Index::finalize_and_save` get their ID and sizes from `save_file`, which
hashes the encoded serialization; these are abstracted as functions of the
Index. -/
structure RepoCtx where
  hash : List Nat → ID
  encode : List Nat → List Nat
  packId : List Nat → ID
  packMetaSize : Nat → Nat
  indexFileId : Index → ID
  indexFileSizes : Index → Nat × Nat

/-- A record of one file written through `save_file` style persistence:
which ID it was stored under (the file name) and a tag of what it was. -/
inductive SavedFile where
  | indexFile : ID → SavedFile
  | packFile : ID → SavedFile
  | otherFile : ID → SavedFile
deriving Repr, DecidableEq

/-- `Index::finalize_and_save`: finalize, and unless the index holds no
blobs at all serialize it through `save_file`, recording the new file and
the index's new ID.  Returns the updated index, the save event (if a file
was written) and the reported raw and encoded sizes. -/
def Index.finalize_and_save (ctx : RepoCtx) (idx : Index) :
    Index × Option SavedFile × (Nat × Nat) :=
  let idx := idx.finalize
  if idx.data_ids.isEmpty && idx.tree_ids.isEmpty then
    (idx, none, (0, 0))
  else
    let fid := ctx.indexFileId idx
    ({ idx with id := some fid }, some (SavedFile.indexFile fid),
      ctx.indexFileSizes idx)

/-- `MasterIndex` of src/repository/index.rs: the list of indices and the
pending-blobs set. -/
structure MasterIndex where
  indices : List Index
  pending_blobs : List ID
deriving Repr, DecidableEq

def MasterIndex.new : MasterIndex := { indices := [], pending_blobs := [] }

/-- `MasterIndex::contains`: known in a finalized (non-pending) index, or
currently a pending blob. -/
def MasterIndex.contains (mi : MasterIndex) (i : ID) : Bool :=
  mi.indices.any (fun idx => !idx.is_pending && idx.containsBlob i)
    || mi.pending_blobs.any (fun p => p == i)

/-- `MasterIndex::get`: search finalized indices only. -/
def MasterIndex.get (mi : MasterIndex) (i : ID) :
    Option (ID × BlobType × Nat × Nat × Nat) :=
  mi.indices.findSome?
    (fun idx => if idx.is_pending then none else idx.getBlob i)

/-- `MasterIndex::add_pending_blob`: `HashSet::insert`, true when newly
inserted. -/
def MasterIndex.add_pending_blob (mi : MasterIndex) (i : ID) : Bool × MasterIndex :=
  if mi.pending_blobs.any (fun p => p == i) then (false, mi)
  else (true, { mi with pending_blobs := i :: mi.pending_blobs })

/-- The loop of `MasterIndex::add_pack` over the indices: give the pack to
the first pending index and stop there (finalizing and saving it when it is
then full); report whether a pending index was found. -/
def addPackToFirstPending (ctx : RepoCtx) (now : Nat) (pack_id : ID)
    (descriptors : List PackedBlobDescriptor) :
    List Index → List Index × Option SavedFile × (Nat × Nat) × Bool
  | [] => ([], none, (0, 0), false)
  | idx :: rest =>
    if idx.is_pending then
      let idx := idx.addPack pack_id descriptors
      if idx.is_full now then
        let (idx, ev, sizes) := idx.finalize_and_save ctx
        (idx :: rest, ev, sizes, true)
      else
        (idx :: rest, none, (0, 0), true)
    else
      let (rest, ev, sizes, found) :=
        addPackToFirstPending ctx now pack_id descriptors rest
      (idx :: rest, ev, sizes, found)

/-- `MasterIndex::add_pack`: remove the descriptors' blob IDs from the
pending set, append the entries to the first pending index (finalizing and
saving it when full), or create a new pending index holding the pack when
no pending index exists. -/
def MasterIndex.addPack (ctx : RepoCtx) (now : Nat) (mi : MasterIndex)
    (pack_id : ID) (descriptors : List PackedBlobDescriptor) :
    MasterIndex × Option SavedFile × (Nat × Nat) :=
  let pending :=
    mi.pending_blobs.filter (fun p => !(descriptors.any (fun d => d.id == p)))
  let (indices, ev, sizes, found) :=
    addPackToFirstPending ctx now pack_id descriptors mi.indices
  if found then
    ({ indices := indices, pending_blobs := pending }, ev, sizes)
  else
    ({ indices := indices ++ [(Index.new now).addPack pack_id descriptors]
       pending_blobs := pending }, none, (0, 0))

/-- `MasterIndex::save`: finalize and save every still-pending index. -/
def MasterIndex.save (ctx : RepoCtx) (mi : MasterIndex) :
    MasterIndex × List SavedFile × (Nat × Nat) :=
  let step := fun (acc : List Index × List SavedFile × Nat × Nat) (idx : Index) =>
    let (done, evs, raw, enc) := acc
    if idx.is_pending then
      let (idx, ev, sizes) := idx.finalize_and_save ctx
      (done ++ [idx], evs ++ ev.toList, raw + sizes.1, enc + sizes.2)
    else
      (done ++ [idx], evs, raw, enc)
  let (indices, evs, raw, enc) := mi.indices.foldl step ([], [], 0, 0)
  ({ mi with indices := indices }, evs, (raw, enc))

/-- The descriptor list rebuilt for one pack by the `process_blobs` closure
of `MasterIndex::merge_index`: all blobs of the given map that
`Index::get` locates in `pack_id`. -/
def Index.blobsOfPack (idx : Index) (m : BlobMap) (bt : BlobType) (pack_id : ID) :
    List PackedBlobDescriptor :=
  (m.filter
      (fun e => idx.pack_ids.get_value e.2.pack_array_index == some pack_id)).map
    (fun e =>
      { id := e.1, blob_type := bt, offset := e.2.offset
        length := e.2.length, raw_length := e.2.raw_length })

/-- The body of the inner pack loop of `MasterIndex::merge_index`: skip a
pack that was already merged; otherwise, if the current index is full,
bank it and start a fresh one, then add the pack with the descriptors the
`process_blobs` closure rebuilds from `idx`.  The accumulator carries the
completed new indices, the set of pack IDs already seen, and the index
currently being filled. -/
def mergeStepPack (now : Nat) (idx : Index)
    (acc : List Index × List ID × Index) (pack_id : ID) :
    List Index × List ID × Index :=
  if acc.2.1.any (fun p => p == pack_id) then acc
  else
    let news := if acc.2.2.is_full now then acc.1 ++ [acc.2.2] else acc.1
    let current := if acc.2.2.is_full now then Index.new now else acc.2.2
    let descriptors :=
      idx.blobsOfPack idx.data_ids BlobType.Data pack_id
        ++ idx.blobsOfPack idx.tree_ids BlobType.Tree pack_id
    (news, pack_id :: acc.2.1, current.addPack pack_id descriptors)

/-- The body of the outer index loop of `MasterIndex::merge_index`: merge
every pack referenced by one old index. -/
def mergeStepIndex (now : Nat) (acc : List Index × List ID × Index)
    (idx : Index) : List Index × List ID × Index :=
  idx.pack_ids.values.foldl (mergeStepPack now idx) acc

/-- `MasterIndex::merge_index`: rebuild the indices into a fresh collection
of pending indices, pack by pack, starting a new index whenever the current
one is full.  New indices are created with `Index::new` and are never
finalized here (the comment in the source notes they must stay pending
until saved). -/
def MasterIndex.merge_index (now : Nat) (mi : MasterIndex) : MasterIndex :=
  let r := mi.indices.foldl (mergeStepIndex now) ([], [], Index.new now)
  { mi with indices := if r.2.2.is_empty then r.1 else r.1 ++ [r.2.2] }

/-- `MasterIndex::cleanup`: when a pack set is given, mark every index
pending and remove those packs from it; in every case merge the indices
afterwards. -/
def MasterIndex.cleanup (now : Nat) (mi : MasterIndex)
    (obsolete_packs : Option (List ID)) : MasterIndex :=
  let mi :=
    match obsolete_packs with
    | some packs =>
      { mi with
        indices :=
          mi.indices.map
            (fun (idx : Index) =>
              packs.foldl (fun (idx : Index) (p : ID) => idx.removePack p)
                idx.set_pending) }
    | none => mi
  mi.merge_index now

/-- Modelled from the spec: the `Packer` of the missing packer module
(spec 4.3).  A growable buffer of encoded blob payloads with a parallel
descriptor list; `add_blob` appends the payload and records a descriptor
whose offset is the current tail. -/
structure Packer where
  body : List Nat
  descriptors : List PackedBlobDescriptor
deriving Repr, DecidableEq

def Packer.newPacker : Packer := { body := [], descriptors := [] }

/-- Modelled from the spec: `Packer::add_blob` (spec 4.3), appending the
encoded payload at the current tail. -/
def Packer.add_blob (p : Packer) (i : ID) (bt : BlobType) (payload : List Nat)
    (raw_length encoded_length : Nat) : Packer :=
  { body := p.body ++ payload
    descriptors :=
      p.descriptors
        ++ [{ id := i, blob_type := bt, offset := p.body.length
              length := encoded_length, raw_length := raw_length }] }

/-- Modelled from the spec: `Packer::size` (spec 4.3), the current tail. -/
def Packer.size (p : Packer) : Nat := p.body.length

/-- `FlushedPack` as consumed by `Repository::flush_packer`. -/
structure FlushedPack where
  id : ID
  data : List Nat
  descriptors : List PackedBlobDescriptor
  meta_size : Nat
deriving Repr, DecidableEq

/-- Modelled from the spec: `Packer::flush` (spec 4.3): `none` when empty,
otherwise assemble the pack (body, encoded trailer abstracted through the
context), return its content-hash ID and descriptors, and reset the packer
state. -/
def Packer.flush (ctx : RepoCtx) (p : Packer) : Option FlushedPack × Packer :=
  if p.descriptors.isEmpty then (none, p)
  else
    (some
      { id := ctx.packId p.body, data := p.body, descriptors := p.descriptors
        meta_size := ctx.packMetaSize p.body.length },
      Packer.newPacker)

/-- The Repository state touched by `encode_and_save_blob`, `flush_packer`
and `save_file` of src/repository/repo.rs: the two packers, the master
index, the configured maximum packer size, whether the PackSaver has been
initialized, and journals of the packs handed to the PackSaver and of the
files persisted via `save_with_rename`. -/
structure RepoState where
  data_packer : Packer
  tree_packer : Packer
  index : MasterIndex
  max_packer_size : Nat
  pack_saver_ready : Bool
  saved_packs : List ID
  saved_files : List (SavedFile × List Nat)
deriving DecidableEq

/-- `Repository::flush_packer`: flush the chosen packer (`true` selects the
data packer); on a non-empty flush hand the pack to the PackSaver (an error
when it is not initialized, modelled as `none`) and add the pack to the
master index.  Returns the reported meta sizes and the updated state. -/
def Repository.flush_packer (ctx : RepoCtx) (now : Nat) (st : RepoState)
    (useData : Bool) : Option ((Nat × Nat) × RepoState) :=
  let packer := if useData then st.data_packer else st.tree_packer
  let (flushed, packer) := packer.flush ctx
  let st :=
    if useData then { st with data_packer := packer }
    else { st with tree_packer := packer }
  match flushed with
  | none => some ((0, 0), st)
  | some fp =>
    if st.pack_saver_ready then
      let st := { st with saved_packs := st.saved_packs ++ [fp.id] }
      let (mi, ev, sizes) := st.index.addPack ctx now fp.id fp.descriptors
      let st :=
        { st with
          index := mi
          saved_files :=
            st.saved_files ++ (ev.map (fun e => (e, ([] : List Nat)))).toList }
      some ((fp.meta_size + sizes.1, fp.meta_size + sizes.2), st)
    else
      none

/-- `Repository::encode_and_save_blob` of src/repository/repo.rs for Data
and Tree blobs (a Padding blob panics in the source and is modelled as
`none`): compute or accept the ID, short-circuit with zero sizes when the
blob is already known or pending, otherwise encode the plaintext, append it
to the matching packer, and flush that packer when its size exceeds the
configured maximum.  Returns the ID, the raw and encoded data sizes, the
meta sizes reported by a flush, and the new state. -/
def Repository.encode_and_save_blob (ctx : RepoCtx) (now : Nat) (st : RepoState)
    (bt : BlobType) (data : List Nat) (save_id : SaveID) :
    Option ((ID × (Nat × Nat) × (Nat × Nat)) × RepoState) :=
  match bt with
  | BlobType.Padding => none
  | _ =>
    let useData := bt == BlobType.Data
    let i :=
      match save_id with
      | SaveID.CalculateID => ctx.hash data
      | SaveID.WithID j => j
    let (blob_exists, mi) :=
      if st.index.contains i then (true, st.index)
      else
        let (added, mi) := st.index.add_pending_blob i
        (!added, mi)
    let st := { st with index := mi }
    if blob_exists then
      some ((i, (0, 0), (0, 0)), st)
    else
      let raw_length := data.length
      let encoded := ctx.encode data
      let encoded_length := encoded.length
      let packer :=
        (if useData then st.data_packer else st.tree_packer).add_blob
          i bt encoded raw_length encoded_length
      let st :=
        if useData then { st with data_packer := packer }
        else { st with tree_packer := packer }
      if packer.size > st.max_packer_size then
        (Repository.flush_packer ctx now st useData).map
          (fun r => ((i, (raw_length, encoded_length), r.1), r.2))
      else
        some ((i, (raw_length, encoded_length), (0, 0)), st)

/-- File types handled by `Repository::save_file` (Key and Manifest are
rejected by assertions in the source). -/
inductive FileType where
  | Pack : FileType
  | Snapshot : FileType
  | Index : FileType
  | Key : FileType
  | Manifest : FileType
deriving Repr, DecidableEq

/-- `Repository::save_file` of src/repository/repo.rs: encode the data
through the secure-storage envelope, name the file by the hash of the
encoded bytes, and persist the encoded bytes under that name with
write-then-rename.  The assertions rejecting Key and Manifest files are
modelled as `none`. -/
def Repository.save_file (ctx : RepoCtx) (st : RepoState) (ft : FileType)
    (data : List Nat) : Option ((ID × Nat × Nat) × RepoState) :=
  if ft == FileType.Key || ft == FileType.Manifest then none
  else
    let raw_size := data.length
    let encoded := ctx.encode data
    let encoded_size := encoded.length
    let i := ctx.hash encoded
    let tag :=
      match ft with
      | FileType.Index => SavedFile.indexFile i
      | FileType.Pack => SavedFile.packFile i
      | _ => SavedFile.otherFile i
    some ((i, raw_size, encoded_size),
      { st with saved_files := st.saved_files ++ [(tag, encoded)] })

/-- The ID a `SavedFile` journal entry was stored under (its file name). -/
def SavedFile.fileId : SavedFile → ID
  | SavedFile.indexFile i => i
  | SavedFile.packFile i => i
  | SavedFile.otherFile i => i

/-- The packer `encode_and_save_blob` selects for a blob type (the data
packer for Data, the tree packer for Tree). -/
def packerFor (st : RepoState) (bt : BlobType) : Packer :=
  if bt == BlobType.Data then st.data_packer else st.tree_packer

/-! ## repository/streamers.rs (claims C5 and C6)

Paths are modelled as lists of name components over an arbitrary linearly
ordered alphabet `ν` (the source compares `OsStr` components; `Path`
comparison in Rust is lexicographic over components, which is exactly the
lexicographic order on `List ν`). -/

/-- `p.isUnder q` holds when the component list `p` is an initial segment
of `q` (that is, `q` lies at or below `p` in the directory tree). -/
def isUnder {ν : Type} [DecidableEq ν] : List ν → List ν → Bool
  | [], _ => true
  | _ :: _, [] => false
  | a :: p, b :: q => a == b && isUnder p q

/-- Modelled from the spec: `utils::filter_path` restricted to an exclude
list, as called by `FSNodeStreamer` (spec 4.7: a path is pruned iff any
exclude path is a prefix of it).  The include list is always `None` in
these call sites. -/
def filter_path {ν : Type} [DecidableEq ν] (p : List ν)
    (excludes : List (List ν)) : Bool :=
  !(excludes.any (fun e => isUnder e p))

/-- Longest common initial segment of two component lists. -/
def lcpPair {ν : Type} [DecidableEq ν] : List ν → List ν → List ν
  | a :: p, b :: q => if a == b then a :: lcpPair p q else []
  | _, _ => []

/-- Modelled from the spec: `utils::calculate_lcp`, the longest common
initial segment of the source paths (spec 4.7: the virtual common root
under which disjoint source trees are joined; with a single source path the
root equals that source). -/
def calculate_lcp {ν : Type} [DecidableEq ν] : List (List ν) → List ν
  | [] => []
  | p :: ps => ps.foldl lcpPair p

/-- All strict initial segments of a path, shortest first. -/
def properAncestors {ν : Type} (p : List ν) : List (List ν) :=
  (List.range p.length).map (fun k => p.take k)

/-- Modelled from the spec: `utils::get_intermediate_paths` (spec 4.7: the
intermediate paths synthesised between the virtual common root and the
source paths, so that disjoint source trees are joined while preserving the
total order).  An intermediate path is a strict ancestor of some source
path lying strictly below the common root. -/
def get_intermediate_paths {ν : Type} [DecidableEq ν] (root : List ν)
    (paths : List (List ν)) : List (List ν) :=
  ((paths.flatMap properAncestors).filter
    (fun a => isUnder root a && !(a == root))).dedup

/-- Modelled from the spec: the child count attached to an intermediate
path, the number of sources and intermediates directly under it (emitted
with the node; not relevant to the ordering contract). -/
def interChildCount {ν : Type} [DecidableEq ν] (paths inters : List (List ν))
    (a : List ν) : Nat :=
  (((paths ++ inters).filter
      (fun c => c.take a.length == a && c.length == a.length + 1)).dedup).length

/-- The filesystem, as far as the streamer observes it: which paths exist,
which are directories, and the (unsorted) child names `read_dir` yields for
a directory. -/
structure FSModel (ν : Type) where
  present : List ν → Bool
  is_dir : List ν → Bool
  childNames : List ν → List ν

/-- `FSNodeStreamer::get_children_sorted`: read the directory and sort the
entries by file name.  A Rust `Vec` stack top is the list head here. -/
def get_children_sorted {ν : Type} [LinearOrder ν] (fs : FSModel ν)
    (dir : List ν) : List (List ν) :=
  ((fs.childNames dir).insertionSort (· ≤ ·)).map (fun n => dir ++ [n])

/-- Iterator state of `FSNodeStreamer`.  The source keeps both lists sorted
in reverse order and pops from the back of the `Vec`; this model keeps them
sorted ascending and pops from the head, which is the same data structure
read from the other end. -/
structure FSNodeStreamer (ν : Type) where
  stack : List (List ν)
  inters : List (List ν × Nat)
  exclude : List (List ν)
deriving DecidableEq

/-- The source paths retained by `from_paths` after the exclude filter
(`paths.retain(...)` after `exclude_paths.sort_unstable()`). -/
def retainedPaths {ν : Type} [LinearOrder ν] (paths exclude_paths : List (List ν)) :
    List (List ν) :=
  paths.filter
    (fun p => filter_path p (exclude_paths.insertionSort (· ≤ ·)))

/-- The virtual common root a given `from_paths` call joins its sources
under: the longest common initial segment of the retained (non-excluded)
source paths. -/
def sourceRoot {ν : Type} [LinearOrder ν] (paths exclude_paths : List (List ν)) :
    List ν :=
  calculate_lcp (retainedPaths paths exclude_paths)

/-- The intermediate paths retained by `from_paths` after the exclude
filter. -/
def retainedInters {ν : Type} [LinearOrder ν] (paths exclude_paths : List (List ν)) :
    List (List ν) :=
  (get_intermediate_paths (sourceRoot paths exclude_paths)
      (retainedPaths paths exclude_paths)).filter
    (fun e => filter_path e (exclude_paths.insertionSort (· ≤ ·)))

/-- `FSNodeStreamer::from_paths`: fail when a source path does not exist;
sort the exclude list; drop excluded sources; compute the common root and
the intermediate paths (filtered by the exclude list); sort both work
lists. -/
def FSNodeStreamer.from_paths {ν : Type} [LinearOrder ν] (fs : FSModel ν)
    (paths exclude_paths : List (List ν)) : Option (FSNodeStreamer ν) :=
  if paths.all (fun p => fs.present p) then
    some
      { stack := (retainedPaths paths exclude_paths).insertionSort (· ≤ ·)
        inters := ((retainedInters paths exclude_paths).insertionSort (· ≤ ·)).map
          (fun a => (a, interChildCount (retainedPaths paths exclude_paths)
            (retainedInters paths exclude_paths) a))
        exclude := exclude_paths.insertionSort (· ≤ ·) }
  else
    none

/-- The head-selection loop of `FSNodeStreamer::next`: skip excluded
entries at the head of either list, then report which list holds the
smaller head (`true` for the intermediate list) together with both pruned
lists; `none` when both lists run out. -/
def selectNext {ν : Type} [LinearOrder ν] (ex : List (List ν)) :
    List (List ν × Nat) → List (List ν) →
      Option (Bool × List (List ν × Nat) × List (List ν))
  | [], [] => none
  | iv :: ivs, [] =>
    if filter_path iv.1 ex then some (true, iv :: ivs, [])
    else selectNext ex ivs []
  | [], sv :: svs =>
    if filter_path sv ex then some (false, [], sv :: svs)
    else selectNext ex [] svs
  | iv :: ivs, sv :: svs =>
    if !(filter_path iv.1 ex) then selectNext ex ivs (sv :: svs)
    else if !(filter_path sv ex) then selectNext ex (iv :: ivs) svs
    else some (decide (iv.1 < sv), iv :: ivs, sv :: svs)
  termination_by ivs svs => ivs.length + svs.length

/-- `FSNodeStreamer::next`: select the smaller head; an intermediate path
is emitted with its precomputed child count; a stack path is emitted after
pushing its filtered, sorted children (the emitted count is the number of
children pushed; non-directories emit count 0). -/
def FSNodeStreamer.next {ν : Type} [LinearOrder ν] (fs : FSModel ν)
    (st : FSNodeStreamer ν) : Option ((List ν × Nat) × FSNodeStreamer ν) :=
  match selectNext st.exclude st.inters st.stack with
  | none => none
  | some (true, inters, stack) =>
    match inters with
    | [] => none
    | (p, n) :: rest =>
      some ((p, n), { st with inters := rest, stack := stack })
  | some (false, inters, stack) =>
    match stack with
    | [] => none
    | p :: rest =>
      if fs.is_dir p then
        let children :=
          (get_children_sorted fs p).filter (fun c => filter_path c st.exclude)
        some ((p, children.length),
          { st with inters := inters, stack := children ++ rest })
      else
        some ((p, 0), { st with inters := inters, stack := rest })

/-- The paths emitted by iterating `FSNodeStreamer::next` at most `fuel`
times. -/
def FSNodeStreamer.run {ν : Type} [LinearOrder ν] (fs : FSModel ν) :
    Nat → FSNodeStreamer ν → List (List ν)
  | 0, _ => []
  | fuel + 1, st =>
    match st.next fs with
    | none => []
    | some ((p, _), st) => p :: FSNodeStreamer.run fs fuel st

/-- The names of the immediate children of directory `d` occurring in an
emitted path sequence, in emission order. -/
def childNamesIn {ν : Type} [DecidableEq ν] (d : List ν)
    (emitted : List (List ν)) : List ν :=
  emitted.filterMap
    (fun p =>
      if p.take d.length == d && p.length == d.length + 1 then p.getLast?
      else none)

/-- Modelled from the spec: node metadata as compared by
`Metadata::has_changed` of the missing tree module (spec 4.9: metadata
differs when size, mtime, mode, uid or gid differ).  The remaining stored
fields (for example atime) do not enter the comparison. -/
structure Metadata where
  size : Nat
  mtime : Nat
  mode : Nat
  uid : Nat
  gid : Nat
deriving Repr, DecidableEq

/-- Modelled from the spec: `Metadata::has_changed` (spec 4.9). -/
def Metadata.has_changed (a b : Metadata) : Bool :=
  a.size != b.size || a.mtime != b.mtime || a.mode != b.mode
    || a.uid != b.uid || a.gid != b.gid

/-- A streamed node as far as the diff streamer inspects it. -/
structure StreamNode where
  metadata : Metadata
deriving Repr, DecidableEq

/-- Diff kind emitted by `NodeDiffStreamer`. -/
inductive NodeDiff where
  | New : NodeDiff
  | Deleted : NodeDiff
  | Changed : NodeDiff
  | Unchanged : NodeDiff
deriving Repr, DecidableEq

/-- `NodeDiffStreamer` state over two error-free input streams: the two
remaining stream tails and the two buffered heads. -/
structure NodeDiffStreamer (ν : Type) where
  prev : List (List ν × StreamNode)
  next : List (List ν × StreamNode)
  head_prev : Option (List ν × StreamNode)
  head_next : Option (List ν × StreamNode)
deriving DecidableEq

/-- `NodeDiffStreamer::new`: buffer the first item of each stream. -/
def NodeDiffStreamer.new {ν : Type} (prev next : List (List ν × StreamNode)) :
    NodeDiffStreamer ν :=
  { prev := prev.tail, next := next.tail
    head_prev := prev.head?, head_next := next.head? }

/-- One diff tuple: path, previous node, incoming node, kind. -/
abbrev DiffTuple (ν : Type) :=
  List ν × Option StreamNode × Option StreamNode × NodeDiff

/-- `NodeDiffStreamer::next` of src/repository/streamers.rs on error-free
streams: compare the two head paths; the smaller side is emitted as Deleted
(previous only) or New (incoming only) and refilled; equal paths emit both
nodes as Changed or Unchanged according to `Metadata::has_changed`, and
both heads are refilled. -/
def NodeDiffStreamer.step {ν : Type} [LinearOrder ν] (st : NodeDiffStreamer ν) :
    Option (DiffTuple ν × NodeDiffStreamer ν) :=
  match st.head_prev, st.head_next with
  | none, none => none
  | some (pa, na), none =>
    some ((pa, some na, none, NodeDiff.Deleted),
      { st with head_prev := st.prev.head?, prev := st.prev.tail })
  | none, some (pb, nb) =>
    some ((pb, none, some nb, NodeDiff.New),
      { st with head_next := st.next.head?, next := st.next.tail })
  | some (pa, na), some (pb, nb) =>
    if pa < pb then
      some ((pa, some na, none, NodeDiff.Deleted),
        { st with head_prev := st.prev.head?, prev := st.prev.tail })
    else if pb < pa then
      some ((pb, none, some nb, NodeDiff.New),
        { st with head_next := st.next.head?, next := st.next.tail })
    else
      let kind :=
        if na.metadata.has_changed nb.metadata then NodeDiff.Changed
        else NodeDiff.Unchanged
      some ((pa, some na, some nb, kind),
        { prev := st.prev.tail, next := st.next.tail
          head_prev := st.prev.head?, head_next := st.next.head? })

/-! ## Concrete instances used for witnesses and counterexamples -/

/-- A concrete AEAD model instance: identity cipher with empty derived key.
Only the byte layout produced by the envelope code is under scrutiny, so
the cryptographic content of the primitives is irrelevant here. -/
def aeadToy : AeadModel :=
  { derive_key := fun _ _ => []
    aead_encrypt := fun _ _ d => d
    aead_decrypt := fun _ _ d => some d }

/-- A concrete repository context instance: identity hash (IDs are byte
lists, so the identity is an injective stand-in for SHA-256), identity
envelope, pack IDs tagging the body with a leading 7, zero trailer size,
and a fixed index-file ID. -/
def repoCtxToy : RepoCtx :=
  { hash := fun d => d
    encode := fun d => d
    packId := fun body => 7 :: body
    packMetaSize := fun _ => 0
    indexFileId := fun _ => [9]
    indexFileSizes := fun _ => (3, 2) }

/-- A repository context whose envelope prepends a byte, separating the
encoded bytes from the plaintext. -/
def repoCtxPre : RepoCtx :=
  { repoCtxToy with encode := fun d => 0 :: d }

/-- A one-file filesystem over `Nat` components: the single path `[0]`
exists and is a plain file. -/
def fsToy : FSModel Nat :=
  { present := fun p => p == [0]
    is_dir := fun _ => false
    childNames := fun _ => [] }

/-- The paths still to be emitted that are held verbatim in the streamer
state: the stack and the intermediate-path list. -/
def pendingPaths {ν : Type} (st : FSNodeStreamer ν) : List (List ν) :=
  st.stack ++ st.inters.map Prod.fst

/-- The invariant maintained by `FSNodeStreamer` iteration (established by
`from_paths` for source-path lists in which no source is an initial segment
of another): both work lists are strictly sorted, no stack path is an
initial segment of another stack path or of an intermediate path, and all
held paths pass the exclude filter.  `wf` states that `read_dir` never
reports a duplicate name inside one directory. -/
structure StInv {ν : Type} [LinearOrder ν] (fs : FSModel ν)
    (st : FSNodeStreamer ν) : Prop where
  wf : ∀ d, (fs.childNames d).Nodup
  filt : ∀ x ∈ pendingPaths st, filter_path x st.exclude = true
  ssorted : List.Pairwise (· < ·) st.stack
  snounder : List.Pairwise (fun a b => isUnder a b = false) st.stack
  isorted : List.Pairwise (· < ·) (st.inters.map Prod.fst)
  cross : ∀ s ∈ st.stack, ∀ i ∈ st.inters.map Prod.fst, isUnder s i = false

/-- An empty repository state with the given maximum packer size and an
initialized PackSaver. -/
def emptyRepoState (max_packer_size : Nat) : RepoState :=
  { data_packer := Packer.newPacker
    tree_packer := Packer.newPacker
    index := MasterIndex.new
    max_packer_size := max_packer_size
    pack_saver_ready := true
    saved_packs := []
    saved_files := [] }

end Backup

namespace Backup

/-! # Theorems -/

/-! ## Claim C1 -/

theorem splitChunks_replicate_zero (n : Nat) (hn : n ≠ 0) :
    splitChunks n (List.replicate n (0 : Nat)) = [List.replicate n 0] := by
  obtain ⟨m, rfl⟩ : ∃ m, n = m + 1 := ⟨n - 1, by omega⟩
  rw [List.replicate_succ, splitChunks, if_neg hn, ← List.replicate_succ,
    List.take_replicate, List.drop_replicate]
  simp [splitChunks]

theorem all_zero_replicate (n : Nat) :
    (List.replicate n (0 : Nat)).all (fun b => b == 0) = true := by
  simp [List.all_eq_true, List.mem_replicate]

/-- Claim C1: storing a file and restoring it must reproduce the original
bytes, in particular for files made of chunk-sized runs of zero bytes.  The
code violates this: `store_file` skips every all-zero chunk without
recording it, and `restore_file` concatenates only recorded chunks.
Evaluated at the failing input, a file of 4096 zero bytes (exactly one
chunk at the 4 KiB chunk size chosen for such a file) stores no chunks at
all and restores to the empty byte string. -/
theorem claim_C1 (hash : List Nat → List Nat) (store : ChunkStore) :
    (store_file hash store (List.replicate 4096 0)).1.chunk_hashes = []
      ∧ restore_file (store_file hash store (List.replicate 4096 0)).2
          (Delta.Chunks
            (store_file hash store (List.replicate 4096 0)).1.chunk_hashes)
          = some []
      ∧ List.replicate 4096 (0 : Nat) ≠ [] := by
  have hlen : (List.replicate 4096 (0 : Nat)).length = 4096 := by
    rw [List.length_replicate]
  have hcs : get_chunk_size 4096 = 4096 := by norm_num [get_chunk_size]
  have h1 :
      splitChunks (get_chunk_size (List.replicate 4096 (0 : Nat)).length)
          (List.replicate 4096 0)
        = [List.replicate 4096 0] := by
    rw [hlen, hcs]
    exact splitChunks_replicate_zero 4096 (by norm_num)
  have h2 :
      storeChunks hash [List.replicate 4096 (0 : Nat)] store
        = ([], 0, 0, store) := by
    rw [storeChunks, if_pos (all_zero_replicate 4096), storeChunks]
  have hsplit :
      store_file hash store (List.replicate 4096 0)
        = (⟨[], 0, 0⟩, store) := by
    simp only [store_file]
    rw [h1, h2]
  refine ⟨by rw [hsplit], by rw [hsplit]; rfl, ?_⟩
  intro h
  have h4 := congrArg List.length h
  rw [List.length_replicate, List.length_nil] at h4
  exact absurd h4 (by norm_num)

/-! ## Claim C4 -/

/-- Claim C4 counterexample: the claim states the encryption output is
exactly the nonce, then the ciphertext, then the tag, with nothing before
the nonce.  At a concrete input (16-byte zero salt, 12-byte nonce of ones)
the output of `SecureStorage::encrypt` does not equal nonce followed by the
AEAD output: the 16-byte salt comes first. -/
theorem claim_C4_counterexample :
    SecureStorage.encrypt aeadToy [] (List.replicate 16 0) (List.replicate 12 1) [5]
      ≠ List.replicate 12 1
          ++ aeadToy.aead_encrypt
              (aeadToy.derive_key [] (List.replicate 16 0))
              (List.replicate 12 1) [5] := by
  decide

/-- Claim C4 as amended: for every plaintext, the output of
`SecureStorage::encrypt` is exactly the fresh random 16-byte salt, then the
fresh random 12-byte nonce, then the ciphertext and authentication tag;
and `SecureStorage::decrypt` inverts this layout, recovering the plaintext
whenever the underlying AEAD round-trips. -/
theorem claim_C4 (m : AeadModel) (password salt nonce data : List Nat)
    (hsalt : salt.length = SALT_LENGTH) (hnonce : nonce.length = 12)
    (hround :
      m.aead_decrypt (m.derive_key password salt) nonce
          (m.aead_encrypt (m.derive_key password salt) nonce data)
        = some data) :
    SecureStorage.encrypt m password salt nonce data
        = salt ++ nonce
            ++ m.aead_encrypt (m.derive_key password salt) nonce data
      ∧ SecureStorage.decrypt m password
          (SecureStorage.encrypt m password salt nonce data) = some data := by
  refine ⟨rfl, ?_⟩
  show SecureStorage.decrypt m password
      (salt ++ nonce ++ m.aead_encrypt (m.derive_key password salt) nonce data)
    = some data
  unfold SecureStorage.decrypt
  rw [List.append_assoc, List.take_left' hsalt, List.drop_left' hsalt,
    List.take_left' hnonce, List.drop_left' hnonce]
  exact hround

theorem claim_C4_witness :
    (List.replicate 16 (0 : Nat)).length = SALT_LENGTH
      ∧ (List.replicate 12 (1 : Nat)).length = 12
      ∧ (SecureStorage.encrypt aeadToy [] (List.replicate 16 0)
            (List.replicate 12 1) [5]
          = List.replicate 16 0 ++ List.replicate 12 1
              ++ aeadToy.aead_encrypt
                  (aeadToy.derive_key [] (List.replicate 16 0))
                  (List.replicate 12 1) [5]
        ∧ SecureStorage.decrypt aeadToy []
            (SecureStorage.encrypt aeadToy [] (List.replicate 16 0)
              (List.replicate 12 1) [5]) = some [5]) :=
  ⟨by decide, by decide,
    claim_C4 aeadToy [] (List.replicate 16 0) (List.replicate 12 1) [5]
      (by decide) (by decide) (by decide)⟩

/-! ## Claim C8 -/

/-- Claim C8: the GC plan phase must mark a pack small iff the sum of the
lengths of its kept blobs is below five percent of DEFAULT_PACK_SIZE, the
computed kept size being that sum.  The code disagrees: the accumulation
uses and_modify together with or_default, so the first blob seen for a pack
contributes 0 instead of its length (and every indexed blob is summed,
referenced or not).  Evaluated at the failing input, a single pack holding
one referenced blob of encoded length 1 MiB has true kept size 1048576
(6.25 percent of the pack size, hence not small), yet the code computes
kept size 0 and marks the pack small. -/
theorem claim_C8 :
    (scanSizes [([1], ⟨[2], 1048576⟩)] [[1]]).1 = [([2], 0)]
      ∧ smallPacks (scanSizes [([1], ⟨[2], 1048576⟩)] [[1]]).1 = [[2]]
      ∧ claimKeptSize [([1], ⟨[2], 1048576⟩)] [[1]] [2] = 1048576
      ∧ ¬(20 * claimKeptSize [([1], ⟨[2], 1048576⟩)] [[1]] [2]
            < DEFAULT_PACK_SIZE) := by
  refine ⟨by decide, by decide, by decide, by decide⟩

/-! ## Claim C9 -/

/-- Claim C9: the eviction loop of `BlobCache::load` is claimed to always
exit, including when the requested blob's indexed size exceeds the cache
capacity with no entries left to evict.  It does not: with capacity 0, an
empty cache and a requested blob of indexed size 1, the loop guard stays
true while the loop body does nothing (`pop_first` on the empty order map),
so no amount of fuel makes the loop exit. -/
theorem claim_C9 :
    ∀ fuel, evictLoop 0 1 fuel ⟨0, [], []⟩ = none := by
  intro fuel
  induction fuel with
  | zero => rfl
  | succ n ih =>
    have hstep : (⟨0, [], []⟩ : BlobCacheState).evictOnce = ⟨0, [], []⟩ := rfl
    simpa [evictLoop, hstep] using ih

/-! ## Claim C3 -/

/-- Claim C3 counterexample: the claim states that the file name chosen by
`Repository::save_file` equals the hash of the canonical serialized
plaintext bytes.  With an envelope that prepends a byte (standing for the
compression and encryption step, which never returns the plaintext
unchanged) and the identity hash, saving the plaintext 1-byte file 1 stores
it under the name hash-of-encoded 0,1 and not under hash-of-plaintext 1. -/
theorem claim_C3_counterexample :
    ((Repository.save_file repoCtxPre (emptyRepoState 0) FileType.Snapshot [1]).map
        (fun r => r.1.1) = some [0, 1])
      ∧ repoCtxPre.hash [1] = [1]
      ∧ ([0, 1] : List Nat) ≠ [1] := by
  decide

/-- Claim C3 as amended: for every file persisted through
`Repository::save_file` (snapshots and index files), the file name equals
the hash of the encoded bytes, that is, of the compressed and encrypted
content actually written to disk, and the stored content is exactly those
encoded bytes (so the name is the hash of the stored file content, not of
the plaintext). -/
theorem claim_C3 (ctx : RepoCtx) (st : RepoState) (ft : FileType)
    (data : List Nat) (h1 : ft ≠ FileType.Key) (h2 : ft ≠ FileType.Manifest) :
    ∃ tag st',
      Repository.save_file ctx st ft data
          = some ((ctx.hash (ctx.encode data), data.length,
              (ctx.encode data).length), st')
        ∧ st'.saved_files = st.saved_files ++ [(tag, ctx.encode data)]
        ∧ tag.fileId = ctx.hash (ctx.encode data) := by
  cases ft with
  | Key => exact absurd rfl h1
  | Manifest => exact absurd rfl h2
  | Pack =>
    exact ⟨SavedFile.packFile (ctx.hash (ctx.encode data)), _, rfl, rfl, rfl⟩
  | Snapshot =>
    exact ⟨SavedFile.otherFile (ctx.hash (ctx.encode data)), _, rfl, rfl, rfl⟩
  | Index =>
    exact ⟨SavedFile.indexFile (ctx.hash (ctx.encode data)), _, rfl, rfl, rfl⟩

theorem claim_C3_witness :
    FileType.Snapshot ≠ FileType.Key
      ∧ FileType.Snapshot ≠ FileType.Manifest
      ∧ ∃ tag st',
          Repository.save_file repoCtxToy (emptyRepoState 0) FileType.Snapshot [5]
              = some ((repoCtxToy.hash (repoCtxToy.encode [5]), ([5] : List Nat).length,
                  (repoCtxToy.encode [5]).length), st')
            ∧ st'.saved_files
                = (emptyRepoState 0).saved_files ++ [(tag, repoCtxToy.encode [5])]
            ∧ tag.fileId = repoCtxToy.hash (repoCtxToy.encode [5]) :=
  ⟨by decide, by decide,
    claim_C3 repoCtxToy (emptyRepoState 0) FileType.Snapshot [5]
      (by decide) (by decide)⟩

/-! ## Claim C2 -/

/-- Claim C2 counterexample: the claim states that after every call to
`encode_and_save_blob` the master index contains the returned ID, and that
a second call with byte-equal plaintext short-circuits with zero reported
sizes.  With a maximum packer size of 0, the first call triggers a packer
flush whose descriptors land in a newly created still-pending index and
are removed from the pending-blob set, so `contains` is false right after
the call, and a second call with the same plaintext re-encodes the blob
(its reported raw and encoded sizes are 1, not 0). -/
theorem claim_C2_counterexample :
    ((Repository.encode_and_save_blob repoCtxToy 0 (emptyRepoState 0)
          BlobType.Data [5] SaveID.CalculateID).map (fun r => r.1.1)
        = some [5])
      ∧ ((Repository.encode_and_save_blob repoCtxToy 0 (emptyRepoState 0)
            BlobType.Data [5] SaveID.CalculateID).map
              (fun r => r.2.index.contains [5])
          = some false)
      ∧ (((Repository.encode_and_save_blob repoCtxToy 0 (emptyRepoState 0)
              BlobType.Data [5] SaveID.CalculateID).bind
            (fun r => Repository.encode_and_save_blob repoCtxToy 0 r.2
                BlobType.Data [5] SaveID.CalculateID)).map
              (fun r => (r.1.1, r.1.2.1))
          = some ([5], (1, 1)))
      ∧ ((1, 1) : Nat × Nat) ≠ (0, 0) := by
  refine ⟨by decide, by decide, by decide, by decide⟩

/-- Claim C2 as amended: for every call to `encode_and_save_blob` that does
not trigger a packer flush, the master index contains the returned ID
immediately after the call (the ID is pending or already indexed); and
whenever the blob of the plaintext is already contained at the start of a
call (in particular after an earlier non-flushing call with byte-equal
plaintext and the same type), that call returns the same content-hash ID,
reports zero raw and encoded sizes, and leaves the repository state
unchanged (no encoding, no packer append). -/
theorem claim_C2 (ctx : RepoCtx) (now : Nat) (st : RepoState) (bt : BlobType)
    (data : List Nat) (hbt : bt ≠ BlobType.Padding) :
    ((packerFor st bt).size + (ctx.encode data).length ≤ st.max_packer_size →
        ∃ r st',
          Repository.encode_and_save_blob ctx now st bt data SaveID.CalculateID
              = some (r, st')
            ∧ r.1 = ctx.hash data
            ∧ st'.index.contains (ctx.hash data) = true)
      ∧ (st.index.contains (ctx.hash data) = true →
          Repository.encode_and_save_blob ctx now st bt data SaveID.CalculateID
            = some ((ctx.hash data, (0, 0), (0, 0)), st)) := by
  have hshort :
      st.index.contains (ctx.hash data) = true →
        Repository.encode_and_save_blob ctx now st bt data SaveID.CalculateID
          = some ((ctx.hash data, (0, 0), (0, 0)), st) := by
    intro hdup
    cases bt with
    | Padding => exact absurd rfl hbt
    | Data => simp [Repository.encode_and_save_blob, hdup]
    | Tree => simp [Repository.encode_and_save_blob, hdup]
  refine ⟨?_, hshort⟩
  intro hsize
  by_cases hc : st.index.contains (ctx.hash data) = true
  · exact ⟨_, _, hshort hc, rfl, by simpa using hc⟩
  · have hc' : st.index.contains (ctx.hash data) = false := by
      simpa using hc
    have hpend :
        st.index.pending_blobs.any (fun p => p == ctx.hash data) = false := by
      have h0 := hc'
      unfold MasterIndex.contains at h0
      exact (Bool.or_eq_false_iff.mp h0).2
    have hcontains :
        ∀ mi : MasterIndex, mi.pending_blobs.any (fun p => p == ctx.hash data) = true →
          mi.contains (ctx.hash data) = true := by
      intro mi h
      unfold MasterIndex.contains
      rw [h, Bool.or_true]
    cases bt with
    | Padding => exact absurd rfl hbt
    | Data =>
      refine ⟨(ctx.hash data, (data.length, (ctx.encode data).length), (0, 0)),
        { st with
          index := { st.index with
            pending_blobs := ctx.hash data :: st.index.pending_blobs }
          data_packer := st.data_packer.add_blob (ctx.hash data)
            BlobType.Data (ctx.encode data) data.length
            (ctx.encode data).length }, ?_, rfl, ?_⟩
      · have hbeq : (BlobType.Data == BlobType.Data) = true := rfl
        simp only [Repository.encode_and_save_blob, MasterIndex.add_pending_blob,
          hbeq, hc', hpend, Bool.false_eq_true, if_false, Bool.not_true,
          Bool.not_false, if_true]
        have hps : (st.data_packer.add_blob (ctx.hash data) BlobType.Data
            (ctx.encode data) data.length (ctx.encode data).length).size
              = st.data_packer.size + (ctx.encode data).length := by
          simp [Packer.add_blob, Packer.size]
        rw [hps]
        have hle : ¬ (st.data_packer.size + (ctx.encode data).length
            > st.max_packer_size) := by
          have hpf : packerFor st BlobType.Data = st.data_packer := rfl
          rw [hpf] at hsize
          omega
        simp only [hle, if_false]
      · apply hcontains
        simp
    | Tree =>
      refine ⟨(ctx.hash data, (data.length, (ctx.encode data).length), (0, 0)),
        { st with
          index := { st.index with
            pending_blobs := ctx.hash data :: st.index.pending_blobs }
          tree_packer := st.tree_packer.add_blob (ctx.hash data)
            BlobType.Tree (ctx.encode data) data.length
            (ctx.encode data).length }, ?_, rfl, ?_⟩
      · have hbeq : (BlobType.Tree == BlobType.Data) = false := rfl
        simp only [Repository.encode_and_save_blob, MasterIndex.add_pending_blob,
          hbeq, hc', hpend, Bool.false_eq_true, if_false, Bool.not_true,
          Bool.not_false, if_true]
        have hps : (st.tree_packer.add_blob (ctx.hash data) BlobType.Tree
            (ctx.encode data) data.length (ctx.encode data).length).size
              = st.tree_packer.size + (ctx.encode data).length := by
          simp [Packer.add_blob, Packer.size]
        rw [hps]
        have hle : ¬ (st.tree_packer.size + (ctx.encode data).length
            > st.max_packer_size) := by
          have hpf : packerFor st BlobType.Tree = st.tree_packer := rfl
          rw [hpf] at hsize
          omega
        simp only [hle, if_false]
      · apply hcontains
        simp

theorem claim_C2_witness :
    (BlobType.Data ≠ BlobType.Padding)
      ∧ ((packerFor (emptyRepoState 10) BlobType.Data).size
            + (repoCtxToy.encode [5]).length ≤ (emptyRepoState 10).max_packer_size)
      ∧ (∃ r st',
          Repository.encode_and_save_blob repoCtxToy 0 (emptyRepoState 10)
              BlobType.Data [5] SaveID.CalculateID = some (r, st')
            ∧ r.1 = repoCtxToy.hash [5]
            ∧ st'.index.contains (repoCtxToy.hash [5]) = true)
      ∧ ((emptyRepoState 10).index.contains (repoCtxToy.hash [5]) = true →
          Repository.encode_and_save_blob repoCtxToy 0 (emptyRepoState 10)
              BlobType.Data [5] SaveID.CalculateID
            = some ((repoCtxToy.hash [5], (0, 0), (0, 0)),
                emptyRepoState 10)) :=
  ⟨by decide, by decide,
    (claim_C2 repoCtxToy 0 (emptyRepoState 10) BlobType.Data [5]
        (by decide)).1 (by decide),
    (claim_C2 repoCtxToy 0 (emptyRepoState 10) BlobType.Data [5]
        (by decide)).2⟩

/-! ## Claim C10 -/

theorem foldl_preserve {α β : Type _} {P : β → Prop} {f : β → α → β}
    (hf : ∀ b a, P b → P (f b a)) :
    ∀ (l : List α) (b : β), P b → P (l.foldl f b)
  | [], _, hb => hb
  | a :: l, b, hb => foldl_preserve hf l (f b a) (hf b a hb)

theorem addPack_is_pending (idx : Index) (pack_id : ID)
    (descriptors : List PackedBlobDescriptor) :
    (idx.addPack pack_id descriptors).is_pending = idx.is_pending := by
  unfold Index.addPack
  refine foldl_preserve (P := fun j : Index => j.is_pending = idx.is_pending)
    ?_ descriptors _ rfl
  intro b a hb
  cases ha : a.blob_type <;> simp [ha, hb]

theorem mergeStepPack_preserve (now : Nat) (idx : Index)
    (acc : List Index × List ID × Index) (pack_id : ID)
    (h : (∀ j ∈ acc.1, j.is_pending = true) ∧ acc.2.2.is_pending = true) :
    (∀ j ∈ (mergeStepPack now idx acc pack_id).1, j.is_pending = true)
      ∧ (mergeStepPack now idx acc pack_id).2.2.is_pending = true := by
  obtain ⟨hn, hc⟩ := h
  unfold mergeStepPack
  by_cases hseen : acc.2.1.any (fun p => p == pack_id) = true
  · simp only [hseen, if_true]
    exact ⟨hn, hc⟩
  · have hseen' : acc.2.1.any (fun p => p == pack_id) = false :=
      Bool.eq_false_iff.mpr hseen
    by_cases hfull : acc.2.2.is_full now = true
    · refine ⟨?_, ?_⟩
      · intro j hj
        simp only [hseen', Bool.false_eq_true, if_false, hfull, if_true] at hj
        rcases List.mem_append.mp hj with hj | hj
        · exact hn j hj
        · rcases List.mem_singleton.mp hj with rfl
          exact hc
      · simp only [hseen', Bool.false_eq_true, if_false, hfull, if_true]
        rw [addPack_is_pending]
        rfl
    · have hfull' : acc.2.2.is_full now = false := Bool.eq_false_iff.mpr hfull
      refine ⟨?_, ?_⟩
      · intro j hj
        simp only [hseen', Bool.false_eq_true, if_false, hfull'] at hj
        exact hn j hj
      · simp only [hseen', Bool.false_eq_true, if_false, hfull']
        rw [addPack_is_pending]
        exact hc

theorem merge_index_allPending (now : Nat) (mi : MasterIndex) :
    ∀ idx ∈ (MasterIndex.merge_index now mi).indices, idx.is_pending = true := by
  have key :
      (∀ j ∈ (mi.indices.foldl (mergeStepIndex now) ([], [], Index.new now)).1,
          j.is_pending = true)
        ∧ (mi.indices.foldl (mergeStepIndex now)
            ([], [], Index.new now)).2.2.is_pending = true := by
    refine foldl_preserve
      (P := fun acc : List Index × List ID × Index =>
        (∀ j ∈ acc.1, j.is_pending = true) ∧ acc.2.2.is_pending = true)
      ?_ mi.indices ([], [], Index.new now)
      ⟨(by intro j hj; cases hj), rfl⟩
    intro acc idx hacc
    unfold mergeStepIndex
    exact foldl_preserve
      (P := fun acc : List Index × List ID × Index =>
        (∀ j ∈ acc.1, j.is_pending = true) ∧ acc.2.2.is_pending = true)
      (fun b a hb => mergeStepPack_preserve now idx b a hb)
      idx.pack_ids.values acc hacc
  intro idx hidx
  unfold MasterIndex.merge_index at hidx
  simp only at hidx
  by_cases hemp :
      (mi.indices.foldl (mergeStepIndex now)
        ([], [], Index.new now)).2.2.is_empty = true
  · simp only [hemp, if_true] at hidx
    exact key.1 idx hidx
  · have hemp' :
        (mi.indices.foldl (mergeStepIndex now)
          ([], [], Index.new now)).2.2.is_empty = false := by
      simpa using hemp
    simp only [hemp', Bool.false_eq_true, if_false] at hidx
    rcases List.mem_append.mp hidx with hj | hj
    · exact key.1 idx hj
    · rcases List.mem_singleton.mp hj with rfl
      exact key.2

theorem get_eq_none_of_allPending (mi : MasterIndex)
    (h : ∀ idx ∈ mi.indices, idx.is_pending = true) :
    ∀ i, mi.get i = none := by
  intro i
  unfold MasterIndex.get
  rw [List.findSome?_eq_none_iff]
  intro idx hidx
  simp [h idx hidx]

/-- Claim C10: immediately after `MasterIndex::cleanup` returns, with or
without a set of packs to remove, every Index held by the MasterIndex is
pending (merge_index rebuilds the collection out of fresh never-finalized
indices), and therefore `MasterIndex::get` returns none for every blob ID
until the indices are finalized again by a save. -/
theorem claim_C10 (now : Nat) (mi : MasterIndex) (packs : Option (List ID)) :
    (∀ idx ∈ (MasterIndex.cleanup now mi packs).indices, idx.is_pending = true)
      ∧ ∀ i, (MasterIndex.cleanup now mi packs).get i = none := by
  have hall :
      ∀ idx ∈ (MasterIndex.cleanup now mi packs).indices, idx.is_pending = true := by
    unfold MasterIndex.cleanup
    cases packs with
    | none => exact merge_index_allPending now mi
    | some l => exact merge_index_allPending now _
  exact ⟨hall, get_eq_none_of_allPending _ hall⟩

theorem claim_C10_witness :
    (MasterIndex.cleanup 0
        ⟨[{ data_ids := [([5], ⟨0, 0, 1, 1⟩)], tree_ids := [], pack_ids := [some [2]]
            is_pending := false, create_time := 0, id := some [9] }], []⟩
        none).get [5] = none :=
  (claim_C10 0
    ⟨[{ data_ids := [([5], ⟨0, 0, 1, 1⟩)], tree_ids := [], pack_ids := [some [2]]
        is_pending := false, create_time := 0, id := some [9] }], []⟩
    none).2 [5]

/-! ## Claim C7 -/

theorem afp_all_final (ctx : RepoCtx) (now : Nat) (pack : ID)
    (descs : List PackedBlobDescriptor) :
    ∀ l, (∀ j ∈ l, j.is_pending = false) →
      addPackToFirstPending ctx now pack descs l = (l, none, (0, 0), false) := by
  intro l
  induction l with
  | nil => intro _; rfl
  | cons a l ih =>
    intro h
    have ha : a.is_pending = false := h a (List.mem_cons_self a l)
    have ih' := ih (fun j hj => h j (List.mem_cons_of_mem a hj))
    simp [addPackToFirstPending, ha, ih']

theorem afp_first (ctx : RepoCtx) (now : Nat) (pack : ID)
    (descs : List PackedBlobDescriptor) :
    ∀ pre (idx : Index) post, (∀ j ∈ pre, j.is_pending = false) →
      idx.is_pending = true →
      addPackToFirstPending ctx now pack descs (pre ++ idx :: post)
        = (pre ++ (if (idx.addPack pack descs).is_full now
              then ((idx.addPack pack descs).finalize_and_save ctx).1
              else idx.addPack pack descs) :: post,
            (if (idx.addPack pack descs).is_full now
              then ((idx.addPack pack descs).finalize_and_save ctx).2.1
              else none),
            (if (idx.addPack pack descs).is_full now
              then ((idx.addPack pack descs).finalize_and_save ctx).2.2
              else (0, 0)),
            true) := by
  intro pre
  induction pre with
  | nil =>
    intro idx post _ hpend
    simp only [List.nil_append]
    by_cases hfull : (idx.addPack pack descs).is_full now = true
    · rcases hfs : (idx.addPack pack descs).finalize_and_save ctx with ⟨i2, ev, sz⟩
      simp [addPackToFirstPending, hpend, hfull, hfs]
    · have hfull' := Bool.eq_false_iff.mpr hfull
      simp [addPackToFirstPending, hpend, hfull']
  | cons a pre ih =>
    intro idx post hpre hpend
    have ha : a.is_pending = false := hpre a (List.mem_cons_self a pre)
    have ih' := ih idx post (fun j hj => hpre j (List.mem_cons_of_mem a hj)) hpend
    simp [addPackToFirstPending, ha, ih']

theorem finalize_and_save_pending (ctx : RepoCtx) (i : Index) :
    ((Index.finalize_and_save ctx i).1).is_pending = false := by
  simp only [Index.finalize_and_save, Index.finalize]
  split <;> rfl

theorem finalize_and_save_event (ctx : RepoCtx) (i : Index) :
    ((Index.finalize_and_save ctx i).2.1 ≠ none) ↔ i.num_blobs ≠ 0 := by
  have hnb : (i.data_ids.isEmpty && i.tree_ids.isEmpty) = true ↔ i.num_blobs = 0 := by
    rw [Bool.and_eq_true, List.isEmpty_iff, List.isEmpty_iff]
    unfold Index.num_blobs
    constructor
    · rintro ⟨h1, h2⟩
      rw [h1, h2]
      rfl
    · intro h
      have h1 : i.data_ids.length = 0 := by omega
      have h2 : i.tree_ids.length = 0 := by omega
      exact ⟨List.eq_nil_of_length_eq_zero h1, List.eq_nil_of_length_eq_zero h2⟩
  simp only [Index.finalize_and_save, Index.finalize]
  by_cases h : (i.data_ids.isEmpty && i.tree_ids.isEmpty) = true
  · have h0 : i.num_blobs = 0 := hnb.mp h
    simp [h, h0]
  · have h0 : i.num_blobs ≠ 0 := fun hc => h (hnb.mpr hc)
    have h' := Bool.eq_false_iff.mpr h
    simp [h', h0]

/-- Claim C7 counterexample: the claim states the receiving pending Index
is finalized and written out exactly when it holds at least 65,535 blobs or
is older than the 10-minute flush timeout.  Calling `add_pack` with an
empty descriptor list on a master index whose single pending Index was
created 700 seconds ago (older than the timeout): the index is full by age
and does get finalized, but because it holds no blobs `finalize_and_save`
returns without writing anything, so no index file is written. -/
theorem claim_C7_counterexample :
    ((Index.new 0).addPack [1] []).is_full 700 = true
      ∧ (MasterIndex.addPack repoCtxToy 700 ⟨[Index.new 0], []⟩ [1] []).2.1 = none
      ∧ ((MasterIndex.addPack repoCtxToy 700
            ⟨[Index.new 0], []⟩ [1] []).1.indices.map Index.is_pending)
          = [false] := by
  refine ⟨by decide, by decide, by decide⟩

/-- Claim C7 as amended: `MasterIndex::add_pack` removes the descriptors'
blob IDs from the pending-blobs set; when no pending Index exists, a new
pending Index holding the pack is appended and is never finalized or
written by this call (even if the pack alone reaches the blob limit);
when a first pending Index exists, it receives the entries, is finalized
exactly when it then holds at least BLOBS_PER_INDEX_FILE blobs or is older
than INDEX_FLUSH_TIMEOUT, and is written out exactly when it is finalized
and moreover holds at least one blob. -/
theorem claim_C7 (ctx : RepoCtx) (now : Nat) (mi : MasterIndex) (pack : ID)
    (descs : List PackedBlobDescriptor) :
    ((MasterIndex.addPack ctx now mi pack descs).1.pending_blobs
        = mi.pending_blobs.filter (fun p => !(descs.any (fun d => d.id == p))))
      ∧ ((∀ j ∈ mi.indices, j.is_pending = false) →
          (MasterIndex.addPack ctx now mi pack descs).1.indices
              = mi.indices ++ [(Index.new now).addPack pack descs]
            ∧ (MasterIndex.addPack ctx now mi pack descs).2.1 = none
            ∧ ((Index.new now).addPack pack descs).is_pending = true)
      ∧ (∀ pre idx post, mi.indices = pre ++ idx :: post →
          (∀ j ∈ pre, j.is_pending = false) → idx.is_pending = true →
          (MasterIndex.addPack ctx now mi pack descs).1.indices
              = pre ++ (if (idx.addPack pack descs).is_full now
                  then ((idx.addPack pack descs).finalize_and_save ctx).1
                  else idx.addPack pack descs) :: post
            ∧ ((MasterIndex.addPack ctx now mi pack descs).2.1 ≠ none
                ↔ ((idx.addPack pack descs).is_full now = true
                    ∧ (idx.addPack pack descs).num_blobs ≠ 0))
            ∧ ((if (idx.addPack pack descs).is_full now
                  then ((idx.addPack pack descs).finalize_and_save ctx).1
                  else idx.addPack pack descs).is_pending
                = !((idx.addPack pack descs).is_full now))) := by
  refine ⟨?_, ?_, ?_⟩
  · unfold MasterIndex.addPack
    rcases h : addPackToFirstPending ctx now pack descs mi.indices
      with ⟨ind, ev, sz, found⟩
    cases found <;> simp [h]
  · intro hall
    have h := afp_all_final ctx now pack descs mi.indices hall
    unfold MasterIndex.addPack
    rw [h]
    refine ⟨rfl, rfl, ?_⟩
    rw [addPack_is_pending]
    rfl
  · intro pre idx post heq hpre hpend
    have h := afp_first ctx now pack descs pre idx post hpre hpend
    unfold MasterIndex.addPack
    rw [heq, h]
    refine ⟨rfl, ?_, ?_⟩
    · by_cases hfull : (idx.addPack pack descs).is_full now = true
      · simp only [hfull, if_true]
        rw [finalize_and_save_event]
        simp [hfull]
      · have hfull' := Bool.eq_false_iff.mpr hfull
        simp [hfull']
    · by_cases hfull : (idx.addPack pack descs).is_full now = true
      · simp only [hfull, if_true, Bool.not_true]
        exact finalize_and_save_pending ctx _
      · have hfull' := Bool.eq_false_iff.mpr hfull
        simp only [hfull', Bool.false_eq_true, if_false, Bool.not_false]
        rw [addPack_is_pending]
        exact hpend

theorem claim_C7_witness :
    (MasterIndex.addPack repoCtxToy 700 ⟨[Index.new 0], []⟩ [1] []).1.indices
        = [] ++ (if ((Index.new 0).addPack [1] []).is_full 700
            then (((Index.new 0).addPack [1] []).finalize_and_save repoCtxToy).1
            else (Index.new 0).addPack [1] []) :: []
      ∧ ((MasterIndex.addPack repoCtxToy 700 ⟨[Index.new 0], []⟩ [1] []).2.1 ≠ none
          ↔ (((Index.new 0).addPack [1] []).is_full 700 = true
              ∧ ((Index.new 0).addPack [1] []).num_blobs ≠ 0))
      ∧ ((if ((Index.new 0).addPack [1] []).is_full 700
            then (((Index.new 0).addPack [1] []).finalize_and_save repoCtxToy).1
            else (Index.new 0).addPack [1] []).is_pending
          = !(((Index.new 0).addPack [1] []).is_full 700)) :=
  (claim_C7 repoCtxToy 700 ⟨[Index.new 0], []⟩ [1] []).2.2
    [] (Index.new 0) [] rfl (by intro j hj; cases hj) rfl

/-! ## Claim C6 -/

/-- Claim C6: for every pair of input streams ordered by path, each step of
`NodeDiffStreamer` with both heads present compares the two head paths and
emits Deleted with the previous node when the previous path is smaller, New
with the incoming node when it is greater, and on equal paths Changed when
the two nodes' metadata differ and Unchanged otherwise. -/
theorem claim_C6 {ν : Type} [LinearOrder ν] (st : NodeDiffStreamer ν)
    (pa pb : List ν) (na nb : StreamNode)
    (hp : st.head_prev = some (pa, na)) (hn : st.head_next = some (pb, nb))
    (hsp : List.Sorted (· < ·) (pa :: st.prev.map Prod.fst))
    (hsn : List.Sorted (· < ·) (pb :: st.next.map Prod.fst)) :
    (NodeDiffStreamer.step st).map Prod.fst
      = some (if pa < pb then (pa, some na, none, NodeDiff.Deleted)
          else if pb < pa then (pb, none, some nb, NodeDiff.New)
          else (pa, some na, some nb,
            if na.metadata.has_changed nb.metadata then NodeDiff.Changed
            else NodeDiff.Unchanged)) := by
  unfold NodeDiffStreamer.step
  rw [hp, hn]
  by_cases h1 : pa < pb
  · simp [h1]
  · by_cases h2 : pb < pa
    · simp [h1, h2]
    · simp [h1, h2]

theorem claim_C6_witness :
    ((List.Sorted (· < ·) ([0] :: ((NodeDiffStreamer.new (ν := Nat)
          [([0], ⟨⟨1, 2, 3, 4, 5⟩⟩)] [([0], ⟨⟨1, 2, 3, 4, 6⟩⟩)]).prev.map Prod.fst)))
      ∧ (NodeDiffStreamer.step (NodeDiffStreamer.new (ν := Nat)
            [([0], ⟨⟨1, 2, 3, 4, 5⟩⟩)] [([0], ⟨⟨1, 2, 3, 4, 6⟩⟩)])).map Prod.fst
          = some (if ([0] : List Nat) < [0] then
                ([0], some ⟨⟨1, 2, 3, 4, 5⟩⟩, none, NodeDiff.Deleted)
              else if ([0] : List Nat) < [0] then
                ([0], none, some ⟨⟨1, 2, 3, 4, 6⟩⟩, NodeDiff.New)
              else ([0], some ⟨⟨1, 2, 3, 4, 5⟩⟩, some ⟨⟨1, 2, 3, 4, 6⟩⟩,
                if Metadata.has_changed ⟨1, 2, 3, 4, 5⟩ ⟨1, 2, 3, 4, 6⟩ then
                  NodeDiff.Changed
                else NodeDiff.Unchanged))) :=
  ⟨by simp [NodeDiffStreamer.new],
    claim_C6 (NodeDiffStreamer.new [([0], ⟨⟨1, 2, 3, 4, 5⟩⟩)]
        [([0], ⟨⟨1, 2, 3, 4, 6⟩⟩)]) [0] [0] ⟨⟨1, 2, 3, 4, 5⟩⟩ ⟨⟨1, 2, 3, 4, 6⟩⟩
      rfl rfl (by simp [NodeDiffStreamer.new]) (by simp [NodeDiffStreamer.new])⟩

/-! ## Claim C5 -/

section StreamerOrder

variable {ν : Type} [LinearOrder ν]

theorem isUnder_iff (p q : List ν) : isUnder p q = true ↔ ∃ t, q = p ++ t := by
  induction p generalizing q with
  | nil => simp [isUnder]
  | cons a p ih =>
    cases q with
    | nil => simp [isUnder]
    | cons b q =>
      simp only [isUnder, Bool.and_eq_true, beq_iff_eq, ih, List.cons_append,
        List.cons.injEq]
      constructor
      · rintro ⟨rfl, t, rfl⟩
        exact ⟨t, rfl, rfl⟩
      · rintro ⟨t, rfl, rfl⟩
        exact ⟨rfl, t, rfl⟩

theorem isUnder_refl (p : List ν) : isUnder p p = true :=
  (isUnder_iff p p).mpr ⟨[], by simp⟩

theorem isUnder_append_self (p t : List ν) : isUnder p (p ++ t) = true :=
  (isUnder_iff p (p ++ t)).mpr ⟨t, rfl⟩

theorem isUnder_trans {p q r : List ν} (h1 : isUnder p q = true)
    (h2 : isUnder q r = true) : isUnder p r = true := by
  obtain ⟨t, rfl⟩ := (isUnder_iff p q).mp h1
  obtain ⟨u, rfl⟩ := (isUnder_iff _ _).mp h2
  exact (isUnder_iff _ _).mpr ⟨t ++ u, by simp⟩

theorem isUnder_length {p q : List ν} (h : isUnder p q = true) :
    p.length ≤ q.length := by
  obtain ⟨t, rfl⟩ := (isUnder_iff p q).mp h
  simp

theorem isUnder_eq_of_length {p q : List ν} (h : isUnder p q = true)
    (hl : q.length ≤ p.length) : p = q := by
  obtain ⟨t, rfl⟩ := (isUnder_iff p q).mp h
  have : t = [] := by
    have := List.length_append p t
    exact List.eq_nil_of_length_eq_zero (by omega)
  simp [this]

theorem isUnder_take (k : Nat) (p : List ν) : isUnder (p.take k) p = true :=
  (isUnder_iff _ _).mpr ⟨p.drop k, (List.take_append_drop k p).symm⟩

theorem lt_append {p : List ν} (t : List ν) (ht : t ≠ []) : p < p ++ t := by
  induction p with
  | nil =>
    cases t with
    | nil => exact absurd rfl ht
    | cons a t => exact List.Lex.nil
  | cons a p ih => exact List.Lex.cons ih

theorem lt_of_lt_not_under {p s : List ν} (h : List.Lex (· < ·) p s) :
    isUnder p s = false → ∀ x, isUnder p x = true → x < s := by
  induction h with
  | @nil a l =>
    intro hns x hx
    simp [isUnder] at hns
  | @cons a l₁ l₂ hlex ih =>
    intro hns x hx
    cases x with
    | nil => simp [isUnder] at hx
    | cons b x =>
      simp only [isUnder, Bool.and_eq_true, beq_iff_eq] at hx
      obtain ⟨rfl, hx⟩ := hx
      have hns' : isUnder l₁ l₂ = false := by
        simpa [isUnder] using hns
      exact List.Lex.cons (ih hns' x hx)
  | @rel a₁ l₁ a₂ l₂ hrel =>
    intro hns x hx
    cases x with
    | nil => simp [isUnder] at hx
    | cons b x =>
      simp only [isUnder, Bool.and_eq_true, beq_iff_eq] at hx
      obtain ⟨rfl, hx⟩ := hx
      exact List.Lex.rel hrel

theorem append_singleton_lt_iff {d : List ν} {a b : ν} :
    (d ++ [a] < d ++ [b]) ↔ a < b := by
  induction d with
  | nil =>
    constructor
    · intro h
      cases h with
      | cons h => cases h
      | rel h => exact h
    · intro h
      exact List.Lex.rel h
  | cons c d ih =>
    simp only [List.cons_append]
    rw [show ((c :: (d ++ [a]) < c :: (d ++ [b]))
        ↔ List.Lex (· < ·) (d ++ [a]) (d ++ [b])) from List.Lex.cons_iff]
    exact ih

theorem isUnder_append_singleton {d : List ν} {a b : ν}
    (h : isUnder (d ++ [a]) (d ++ [b]) = true) : a = b := by
  have := isUnder_eq_of_length h (by simp)
  simpa using this

theorem selectNext_nil_nil (ex : List (List ν)) :
    selectNext ex ([] : List (List ν × Nat)) [] = none := by
  rw [selectNext]

theorem selectNext_cons_nil (ex : List (List ν)) (iv : List ν × Nat)
    (ivs : List (List ν × Nat)) (h : filter_path iv.1 ex = true) :
    selectNext ex (iv :: ivs) [] = some (true, iv :: ivs, []) := by
  rw [selectNext, if_pos h]

theorem selectNext_nil_cons (ex : List (List ν)) (sv : List ν)
    (svs : List (List ν)) (h : filter_path sv ex = true) :
    selectNext ex ([] : List (List ν × Nat)) (sv :: svs)
      = some (false, [], sv :: svs) := by
  rw [selectNext, if_pos h]

theorem selectNext_cons_cons (ex : List (List ν)) (iv : List ν × Nat)
    (ivs : List (List ν × Nat)) (sv : List ν) (svs : List (List ν))
    (h1 : filter_path iv.1 ex = true) (h2 : filter_path sv ex = true) :
    selectNext ex (iv :: ivs) (sv :: svs)
      = some (decide (iv.1 < sv), iv :: ivs, sv :: svs) := by
  rw [selectNext]
  simp only [h1, h2, Bool.not_true, Bool.false_eq_true, if_false]

theorem children_facts (fs : FSModel ν) (ex : List (List ν)) (sv : List ν)
    (hwf : (fs.childNames sv).Nodup) :
    (∀ c ∈ (get_children_sorted fs sv).filter (fun c => filter_path c ex),
        ∃ a, c = sv ++ [a])
      ∧ List.Pairwise (· < ·)
          ((get_children_sorted fs sv).filter (fun c => filter_path c ex))
      ∧ List.Pairwise (fun a b => isUnder a b = false)
          ((get_children_sorted fs sv).filter (fun c => filter_path c ex))
      ∧ ∀ c ∈ (get_children_sorted fs sv).filter (fun c => filter_path c ex),
          filter_path c ex = true := by
  have hnodup : ((fs.childNames sv).insertionSort (· ≤ ·)).Nodup :=
    ((List.perm_insertionSort (· ≤ ·) (fs.childNames sv)).symm).nodup hwf
  have hnames : List.Pairwise (· < ·)
      ((fs.childNames sv).insertionSort (· ≤ ·)) :=
    List.Sorted.lt_of_le (List.sorted_insertionSort _ _) hnodup
  have hpaths0 : List.Pairwise (· < ·) (get_children_sorted fs sv) := by
    unfold get_children_sorted
    rw [List.pairwise_map]
    exact hnames.imp (fun h => append_singleton_lt_iff.mpr h)
  refine ⟨?_, hpaths0.filter _, ?_, ?_⟩
  · intro c hc
    have hm := (List.mem_filter.mp hc).1
    unfold get_children_sorted at hm
    obtain ⟨a, _, rfl⟩ := List.mem_map.mp hm
    exact ⟨a, rfl⟩
  · have h0 : List.Pairwise (fun a b => isUnder a b = false)
        (get_children_sorted fs sv) := by
      refine List.Pairwise.imp_of_mem ?_ hpaths0
      intro c1 c2 h1 h2 hlt
      unfold get_children_sorted at h1 h2
      obtain ⟨a, _, rfl⟩ := List.mem_map.mp h1
      obtain ⟨b, _, rfl⟩ := List.mem_map.mp h2
      cases hu : isUnder (sv ++ [a]) (sv ++ [b]) with
      | false => rfl
      | true =>
        have hab := isUnder_append_singleton hu
        rw [hab] at hlt
        exact absurd hlt (lt_irrefl _)
    exact h0.filter _
  · intro c hc
    exact (List.mem_filter.mp hc).2

theorem stack_branch_dir (fs : FSModel ν) (st : FSNodeStreamer ν) (sv : List ν)
    (svs : List (List ν)) (hinv : StInv fs st) (hS : st.stack = sv :: svs)
    (hivlt : ∀ i ∈ st.inters.map Prod.fst, sv < i) :
    StInv fs
      ⟨((get_children_sorted fs sv).filter (fun c => filter_path c st.exclude))
          ++ svs, st.inters, st.exclude⟩
      ∧ (∀ x ∈ pendingPaths
            ⟨((get_children_sorted fs sv).filter (fun c => filter_path c st.exclude))
              ++ svs, st.inters, st.exclude⟩, sv < x)
      ∧ (∀ x ∈ pendingPaths
            ⟨((get_children_sorted fs sv).filter (fun c => filter_path c st.exclude))
              ++ svs, st.inters, st.exclude⟩,
          x ∈ pendingPaths st ∨ ∃ a, x = sv ++ [a]) := by
  obtain ⟨hdecomp, hcsorted, hcnounder, hcfilt⟩ :=
    children_facts fs st.exclude sv (hinv.wf sv)
  have hcu : ∀ c ∈ (get_children_sorted fs sv).filter
      (fun c => filter_path c st.exclude), isUnder sv c = true := by
    intro c hc
    obtain ⟨a, rfl⟩ := hdecomp c hc
    exact isUnder_append_self _ _
  have hclt : ∀ c ∈ (get_children_sorted fs sv).filter
      (fun c => filter_path c st.exclude), sv < c := by
    intro c hc
    obtain ⟨a, rfl⟩ := hdecomp c hc
    exact lt_append [a] (by simp)
  have hsst := hinv.ssorted
  rw [hS] at hsst
  obtain ⟨hsv_lt, hsst_tail⟩ := List.pairwise_cons.mp hsst
  have hsnu := hinv.snounder
  rw [hS] at hsnu
  obtain ⟨hsv_nu, hsnu_tail⟩ := List.pairwise_cons.mp hsnu
  have hcross_sv : ∀ i ∈ st.inters.map Prod.fst, isUnder sv i = false := by
    intro i hi
    exact hinv.cross sv (by rw [hS]; exact List.mem_cons_self _ _) i hi
  have hcross_tail : ∀ s ∈ svs, ∀ i ∈ st.inters.map Prod.fst,
      isUnder s i = false := by
    intro s hs i hi
    exact hinv.cross s (by rw [hS]; exact List.mem_cons_of_mem _ hs) i hi
  have hc_lt_s : ∀ c ∈ (get_children_sorted fs sv).filter
      (fun c => filter_path c st.exclude), ∀ s ∈ svs, c < s := by
    intro c hc s hs
    exact lt_of_lt_not_under (hsv_lt s hs) (hsv_nu s hs) c (hcu c hc)
  have hc_nu_s : ∀ c ∈ (get_children_sorted fs sv).filter
      (fun c => filter_path c st.exclude), ∀ s ∈ svs, isUnder c s = false := by
    intro c hc s hs
    cases hu : isUnder c s with
    | false => rfl
    | true =>
      have htr := isUnder_trans (hcu c hc) hu
      rw [hsv_nu s hs] at htr
      simp at htr
  have hc_nu_i : ∀ c ∈ (get_children_sorted fs sv).filter
      (fun c => filter_path c st.exclude), ∀ i ∈ st.inters.map Prod.fst,
      isUnder c i = false := by
    intro c hc i hi
    cases hu : isUnder c i with
    | false => rfl
    | true =>
      have htr := isUnder_trans (hcu c hc) hu
      rw [hcross_sv i hi] at htr
      simp at htr
  have hmem_svs : ∀ s ∈ svs, s ∈ pendingPaths st := by
    intro s hs
    unfold pendingPaths
    exact List.mem_append_left _ (by rw [hS]; exact List.mem_cons_of_mem _ hs)
  have hmem_int : ∀ i ∈ st.inters.map Prod.fst, i ∈ pendingPaths st := by
    intro i hi
    unfold pendingPaths
    exact List.mem_append_right _ hi
  refine ⟨⟨hinv.wf, ?_, ?_, ?_, ?_, ?_⟩, ?_, ?_⟩
  · intro x hx
    unfold pendingPaths at hx
    rcases List.mem_append.mp hx with hx | hx
    · rcases List.mem_append.mp hx with hx | hx
      · exact hcfilt x hx
      · exact hinv.filt x (hmem_svs x hx)
    · exact hinv.filt x (hmem_int x hx)
  · exact List.pairwise_append.mpr ⟨hcsorted, hsst_tail, hc_lt_s⟩
  · exact List.pairwise_append.mpr ⟨hcnounder, hsnu_tail, hc_nu_s⟩
  · exact hinv.isorted
  · intro s hs i hi
    rcases List.mem_append.mp hs with hs | hs
    · exact hc_nu_i s hs i hi
    · exact hcross_tail s hs i hi
  · intro x hx
    unfold pendingPaths at hx
    rcases List.mem_append.mp hx with hx | hx
    · rcases List.mem_append.mp hx with hx | hx
      · exact hclt x hx
      · exact hsv_lt x hx
    · exact hivlt x hx
  · intro x hx
    unfold pendingPaths at hx
    rcases List.mem_append.mp hx with hx | hx
    · rcases List.mem_append.mp hx with hx | hx
      · exact Or.inr (hdecomp x hx)
      · exact Or.inl (hmem_svs x hx)
    · exact Or.inl (hmem_int x hx)

theorem step_main (fs : FSModel ν) (st : FSNodeStreamer ν) (p : List ν) (n : Nat)
    (st' : FSNodeStreamer ν) (hinv : StInv fs st)
    (h : st.next fs = some ((p, n), st')) :
    StInv fs st'
      ∧ p ∈ pendingPaths st
      ∧ (∀ x ∈ pendingPaths st', p < x)
      ∧ (∀ x ∈ pendingPaths st', x ∈ pendingPaths st ∨ ∃ a, x = p ++ [a]) := by
  have hfi : ∀ i ∈ st.inters.map Prod.fst, filter_path i st.exclude = true := by
    intro i hi
    exact hinv.filt i (List.mem_append_right _ hi)
  have hfs2 : ∀ s ∈ st.stack, filter_path s st.exclude = true := by
    intro s hs
    exact hinv.filt s (List.mem_append_left _ hs)
  unfold FSNodeStreamer.next at h
  cases hI : st.inters with
  | nil =>
    cases hS : st.stack with
    | nil =>
      rw [hI, hS, selectNext_nil_nil] at h
      simp at h
    | cons sv svs =>
      have hsst := hinv.ssorted
      rw [hS] at hsst
      have hsv_lt := (List.pairwise_cons.mp hsst).1
      have hsst_tail := (List.pairwise_cons.mp hsst).2
      have hsnu := hinv.snounder
      rw [hS] at hsnu
      have hsnu_tail := (List.pairwise_cons.mp hsnu).2
      have hmem_sv : sv ∈ pendingPaths st :=
        List.mem_append_left _ (by rw [hS]; exact List.mem_cons_self _ _)
      have hmem_svs : ∀ s ∈ svs, s ∈ pendingPaths st := by
        intro s hs
        exact List.mem_append_left _ (by rw [hS]; exact List.mem_cons_of_mem _ hs)
      rw [hI, hS, selectNext_nil_cons st.exclude sv svs
        (hfs2 sv (by rw [hS]; exact List.mem_cons_self _ _))] at h
      by_cases hdir : fs.is_dir sv = true
      · simp only [hdir, if_true, Option.some.injEq, Prod.mk.injEq] at h
        obtain ⟨⟨hp, hn⟩, hst⟩ := h
        subst hp
        subst hst
        have hmain := stack_branch_dir fs st sv svs hinv hS
          (by rw [hI]; intro i hi; cases hi)
        rw [hI] at hmain
        exact ⟨hmain.1, hmem_sv, hmain.2.1, hmain.2.2⟩
      · have hdir' : fs.is_dir sv = false := Bool.eq_false_iff.mpr hdir
        simp only [hdir', Bool.false_eq_true, if_false, Option.some.injEq,
          Prod.mk.injEq] at h
        obtain ⟨⟨hp, hn⟩, hst⟩ := h
        subst hp
        subst hst
        refine ⟨⟨hinv.wf, ?_, hsst_tail, hsnu_tail, List.Pairwise.nil, ?_⟩,
          hmem_sv, ?_, ?_⟩
        · intro x hx
          simp only [pendingPaths, List.map_nil, List.append_nil] at hx
          exact hfs2 x (by rw [hS]; exact List.mem_cons_of_mem _ hx)
        · intro s hs i hi
          cases hi
        · intro x hx
          simp only [pendingPaths, List.map_nil, List.append_nil] at hx
          exact hsv_lt x hx
        · intro x hx
          simp only [pendingPaths, List.map_nil, List.append_nil] at hx
          exact Or.inl (hmem_svs x hx)
  | cons iv ivs =>
    obtain ⟨ip, icnt⟩ := iv
    have hiso := hinv.isorted
    rw [hI] at hiso
    simp only [List.map_cons] at hiso
    have hip_lt := (List.pairwise_cons.mp hiso).1
    have hiso_tail := (List.pairwise_cons.mp hiso).2
    have hmem_ip : ip ∈ pendingPaths st := by
      refine List.mem_append_right _ ?_
      rw [hI]
      simp only [List.map_cons]
      exact List.mem_cons_self _ _
    have hmem_ivs : ∀ i ∈ ivs.map Prod.fst, i ∈ pendingPaths st := by
      intro i hi
      refine List.mem_append_right _ ?_
      rw [hI]
      simp only [List.map_cons]
      exact List.mem_cons_of_mem _ hi
    cases hS : st.stack with
    | nil =>
      rw [hI, hS, selectNext_cons_nil st.exclude (ip, icnt) ivs
        (hfi ip (by rw [hI]; simp only [List.map_cons]; exact List.mem_cons_self _ _))] at h
      simp only [Option.some.injEq, Prod.mk.injEq] at h
      obtain ⟨⟨hp, hn⟩, hst⟩ := h
      subst hp
      subst hst
      refine ⟨⟨hinv.wf, ?_, List.Pairwise.nil, List.Pairwise.nil, hiso_tail, ?_⟩,
        hmem_ip, ?_, ?_⟩
      · intro x hx
        simp only [pendingPaths, List.nil_append] at hx
        refine hfi x ?_
        rw [hI]
        simp only [List.map_cons]
        exact List.mem_cons_of_mem _ hx
      · intro s hs i hi
        cases hs
      · intro x hx
        simp only [pendingPaths, List.nil_append] at hx
        exact hip_lt x hx
      · intro x hx
        simp only [pendingPaths, List.nil_append] at hx
        exact Or.inl (hmem_ivs x hx)
    | cons sv svs =>
      have hsst := hinv.ssorted
      rw [hS] at hsst
      have hsv_lt := (List.pairwise_cons.mp hsst).1
      have hsst_tail := (List.pairwise_cons.mp hsst).2
      have hsnu := hinv.snounder
      rw [hS] at hsnu
      have hsnu_tail := (List.pairwise_cons.mp hsnu).2
      have hmem_sv : sv ∈ pendingPaths st :=
        List.mem_append_left _ (by rw [hS]; exact List.mem_cons_self _ _)
      have hmem_svs : ∀ s ∈ svs, s ∈ pendingPaths st := by
        intro s hs
        exact List.mem_append_left _ (by rw [hS]; exact List.mem_cons_of_mem _ hs)
      have hne : sv ≠ ip := by
        intro he
        have hcr := hinv.cross sv (by rw [hS]; exact List.mem_cons_self _ _) ip
          (by rw [hI]; simp only [List.map_cons]; exact List.mem_cons_self _ _)
        rw [he, isUnder_refl] at hcr
        simp at hcr
      rw [hI, hS, selectNext_cons_cons st.exclude (ip, icnt) ivs sv svs
        (hfi ip (by rw [hI]; simp only [List.map_cons]; exact List.mem_cons_self _ _))
        (hfs2 sv (by rw [hS]; exact List.mem_cons_self _ _))] at h
      by_cases hlt : ip < sv
      · rw [decide_eq_true hlt] at h
        simp only [Option.some.injEq, Prod.mk.injEq] at h
        obtain ⟨⟨hp, hn⟩, hst⟩ := h
        subst hp
        subst hst
        refine ⟨⟨hinv.wf, ?_, ?_, ?_, hiso_tail, ?_⟩, hmem_ip, ?_, ?_⟩
        · intro x hx
          simp only [pendingPaths] at hx
          rcases List.mem_append.mp hx with hx | hx
          · exact hfs2 x (by rw [hS]; exact hx)
          · refine hfi x ?_
            rw [hI]
            simp only [List.map_cons]
            exact List.mem_cons_of_mem _ hx
        · show List.Pairwise (· < ·) (sv :: svs)
          exact hsst
        · show List.Pairwise (fun a b => isUnder a b = false) (sv :: svs)
          exact hsnu
        · intro s hs i hi
          refine hinv.cross s (by rw [hS]; exact hs) i ?_
          rw [hI]
          simp only [List.map_cons]
          exact List.mem_cons_of_mem _ hi
        · intro x hx
          simp only [pendingPaths] at hx
          rcases List.mem_append.mp hx with hx | hx
          · rcases List.mem_cons.mp hx with rfl | hx
            · exact hlt
            · exact lt_trans hlt (hsv_lt x hx)
          · exact hip_lt x hx
        · intro x hx
          simp only [pendingPaths] at hx
          rcases List.mem_append.mp hx with hx | hx
          · rcases List.mem_cons.mp hx with rfl | hx
            · exact Or.inl hmem_sv
            · exact Or.inl (hmem_svs x hx)
          · exact Or.inl (hmem_ivs x hx)
      · have hsvip : sv < ip := lt_of_le_of_ne (not_lt.mp hlt) hne
        have hivlt : ∀ i ∈ st.inters.map Prod.fst, sv < i := by
          intro i hi
          rw [hI] at hi
          simp only [List.map_cons] at hi
          rcases List.mem_cons.mp hi with rfl | hi
          · exact hsvip
          · exact lt_trans hsvip (hip_lt i hi)
        rw [decide_eq_false hlt] at h
        by_cases hdir : fs.is_dir sv = true
        · simp only [hdir, if_true, Option.some.injEq, Prod.mk.injEq] at h
          obtain ⟨⟨hp, hn⟩, hst⟩ := h
          subst hp
          subst hst
          have hmain := stack_branch_dir fs st sv svs hinv hS hivlt
          rw [hI] at hmain
          exact ⟨hmain.1, hmem_sv, hmain.2.1, hmain.2.2⟩
        · have hdir' : fs.is_dir sv = false := Bool.eq_false_iff.mpr hdir
          simp only [hdir', Bool.false_eq_true, if_false, Option.some.injEq,
            Prod.mk.injEq] at h
          obtain ⟨⟨hp, hn⟩, hst⟩ := h
          subst hp
          subst hst
          refine ⟨⟨hinv.wf, ?_, hsst_tail, hsnu_tail, ?_, ?_⟩, hmem_sv, ?_, ?_⟩
          · intro x hx
            simp only [pendingPaths] at hx
            rcases List.mem_append.mp hx with hx | hx
            · exact hfs2 x (by rw [hS]; exact List.mem_cons_of_mem _ hx)
            · refine hfi x ?_
              rw [hI]
              exact hx
          · show List.Pairwise (· < ·) (((ip, icnt) :: ivs).map Prod.fst)
            rw [← hI]
            exact hinv.isorted
          · intro s hs i hi
            refine hinv.cross s (by rw [hS]; exact List.mem_cons_of_mem _ hs) i ?_
            rw [hI]
            exact hi
          · intro x hx
            simp only [pendingPaths] at hx
            rcases List.mem_append.mp hx with hx | hx
            · exact hsv_lt x hx
            · exact hivlt x (by rw [hI]; exact hx)
          · intro x hx
            simp only [pendingPaths] at hx
            rcases List.mem_append.mp hx with hx | hx
            · exact Or.inl (hmem_svs x hx)
            · refine Or.inl (List.mem_append_right _ ?_)
              rw [hI]
              exact hx

theorem run_lowerbound (fs : FSModel ν) :
    ∀ (fuel : Nat) (st : FSNodeStreamer ν) (b : List ν), StInv fs st →
      (∀ x ∈ pendingPaths st, b < x) →
      ∀ y ∈ FSNodeStreamer.run fs fuel st, b < y := by
  intro fuel
  induction fuel with
  | zero =>
    intro st b _ _ y hy
    rw [FSNodeStreamer.run] at hy
    cases hy
  | succ fuel ih =>
    intro st b hinv hb y hy
    rw [FSNodeStreamer.run] at hy
    cases hnext : st.next fs with
    | none =>
      rw [hnext] at hy
      cases hy
    | some r =>
      obtain ⟨⟨q, n⟩, st2⟩ := r
      rw [hnext] at hy
      obtain ⟨hinv2, hmem, hlt, _⟩ := step_main fs st q n st2 hinv hnext
      rcases List.mem_cons.mp hy with rfl | hy
      · exact hb y hmem
      · exact ih st2 b hinv2 (fun x hx => lt_trans (hb q hmem) (hlt x hx)) y hy

theorem run_sorted (fs : FSModel ν) :
    ∀ (fuel : Nat) (st : FSNodeStreamer ν), StInv fs st →
      List.Pairwise (· < ·) (FSNodeStreamer.run fs fuel st) := by
  intro fuel
  induction fuel with
  | zero =>
    intro st _
    rw [FSNodeStreamer.run]
    exact List.Pairwise.nil
  | succ fuel ih =>
    intro st hinv
    rw [FSNodeStreamer.run]
    cases hnext : st.next fs with
    | none => exact List.Pairwise.nil
    | some r =>
      obtain ⟨⟨q, n⟩, st2⟩ := r
      obtain ⟨hinv2, _, hlt, _⟩ := step_main fs st q n st2 hinv hnext
      refine List.pairwise_cons.mpr ⟨?_, ih st2 hinv2⟩
      intro y hy
      exact run_lowerbound fs fuel st2 q hinv2 hlt y hy

theorem run_closed (fs : FSModel ν) (Q : List ν → Prop)
    (hQ : ∀ p a, Q p → Q (p ++ [a])) :
    ∀ (fuel : Nat) (st : FSNodeStreamer ν), StInv fs st →
      (∀ x ∈ pendingPaths st, Q x) →
      ∀ y ∈ FSNodeStreamer.run fs fuel st, Q y := by
  intro fuel
  induction fuel with
  | zero =>
    intro st _ _ y hy
    rw [FSNodeStreamer.run] at hy
    cases hy
  | succ fuel ih =>
    intro st hinv hall y hy
    rw [FSNodeStreamer.run] at hy
    cases hnext : st.next fs with
    | none =>
      rw [hnext] at hy
      cases hy
    | some r =>
      obtain ⟨⟨q, n⟩, st2⟩ := r
      rw [hnext] at hy
      obtain ⟨hinv2, hmem, _, hsub⟩ := step_main fs st q n st2 hinv hnext
      rcases List.mem_cons.mp hy with rfl | hy
      · exact hall y hmem
      · refine ih st2 hinv2 ?_ y hy
        intro x hx
        rcases hsub x hx with hx' | ⟨a, rfl⟩
        · exact hall x hx'
        · exact hQ q a (hall q hmem)

theorem child_decomp {d p : List ν} {x : ν}
    (h1 : p.take d.length = d) (h2 : p.length = d.length + 1)
    (h3 : p.getLast? = some x) : p = d ++ [x] := by
  have hdrop : (p.drop d.length).length = 1 := by
    rw [List.length_drop]
    omega
  obtain ⟨y, hy⟩ : ∃ y, p.drop d.length = [y] := by
    cases hd : p.drop d.length with
    | nil => rw [hd] at hdrop; simp at hdrop
    | cons a l =>
      rw [hd] at hdrop
      simp only [List.length_cons] at hdrop
      have hl : l.length = 0 := by omega
      rw [List.length_eq_zero] at hl
      exact ⟨a, by rw [hl]⟩
  have hp : p = d ++ [y] := by
    conv_lhs => rw [← List.take_append_drop d.length p]
    rw [h1, hy]
  rw [hp, List.getLast?_concat] at h3
  injection h3 with h3
  rw [hp, h3]

theorem childNamesIn_pairwise (d : List ν) (L : List (List ν))
    (h : List.Pairwise (· < ·) L) :
    List.Pairwise (· < ·) (childNamesIn d L) := by
  unfold childNamesIn
  rw [List.pairwise_filterMap]
  refine List.Pairwise.imp_of_mem ?_ h
  intro p q _ _ hlt x hx y hy
  by_cases hc1 : (p.take d.length == d && p.length == d.length + 1) = true
  · rw [if_pos hc1] at hx
    by_cases hc2 : (q.take d.length == d && q.length == d.length + 1) = true
    · rw [if_pos hc2] at hy
      rw [Bool.and_eq_true] at hc1 hc2
      obtain ⟨hp1, hp2⟩ := hc1
      obtain ⟨hq1, hq2⟩ := hc2
      have hpd := child_decomp (beq_iff_eq.mp hp1) (beq_iff_eq.mp hp2) hx
      have hqd := child_decomp (beq_iff_eq.mp hq1) (beq_iff_eq.mp hq2) hy
      rw [hpd, hqd] at hlt
      exact append_singleton_lt_iff.mp hlt
    · rw [if_neg hc2] at hy
      cases hy
  · rw [if_neg hc1] at hx
    cases hx

theorem lcpPair_under_left (a b : List ν) : isUnder (lcpPair a b) a = true := by
  induction a generalizing b with
  | nil => cases b <;> rfl
  | cons x a ih =>
    cases b with
    | nil => rfl
    | cons y b =>
      unfold lcpPair
      by_cases hxy : (x == y) = true
      · rw [if_pos hxy]
        simp [isUnder, ih b]
      · rw [if_neg hxy]
        rfl

theorem lcpPair_under_right (a b : List ν) : isUnder (lcpPair a b) b = true := by
  induction a generalizing b with
  | nil => cases b <;> rfl
  | cons x a ih =>
    cases b with
    | nil => rfl
    | cons y b =>
      unfold lcpPair
      by_cases hxy : (x == y) = true
      · rw [if_pos hxy]
        simp [isUnder, hxy, ih b]
      · rw [if_neg hxy]
        rfl

theorem foldl_lcp_under (l : List (List ν)) :
    ∀ acc : List ν, isUnder (l.foldl lcpPair acc) acc = true
      ∧ ∀ q ∈ l, isUnder (l.foldl lcpPair acc) q = true := by
  induction l with
  | nil =>
    intro acc
    exact ⟨isUnder_refl acc, by intro q hq; cases hq⟩
  | cons q l ih =>
    intro acc
    have h := ih (lcpPair acc q)
    refine ⟨isUnder_trans h.1 (lcpPair_under_left acc q), ?_⟩
    intro r hr
    rcases List.mem_cons.mp hr with rfl | hr
    · exact isUnder_trans h.1 (lcpPair_under_right acc r)
    · exact h.2 r hr

theorem calculate_lcp_under (ps : List (List ν)) :
    ∀ p ∈ ps, isUnder (calculate_lcp ps) p = true := by
  cases ps with
  | nil => intro p hp; cases hp
  | cons q ps =>
    intro p hp
    unfold calculate_lcp
    rcases List.mem_cons.mp hp with rfl | hp
    · exact (foldl_lcp_under ps p).1
    · exact (foldl_lcp_under ps q).2 p hp

theorem properAncestors_mem {p i : List ν} :
    i ∈ properAncestors p ↔ ∃ k, k < p.length ∧ i = p.take k := by
  unfold properAncestors
  simp only [List.mem_map, List.mem_range]
  constructor
  · rintro ⟨k, hk, rfl⟩
    exact ⟨k, hk, rfl⟩
  · rintro ⟨k, hk, rfl⟩
    exact ⟨k, hk, rfl⟩

theorem mem_gip {root : List ν} {paths : List (List ν)} {i : List ν} :
    i ∈ get_intermediate_paths root paths ↔
      (isUnder root i = true ∧ i ≠ root
        ∧ ∃ t ∈ paths, isUnder i t = true ∧ i.length < t.length) := by
  unfold get_intermediate_paths
  rw [List.mem_dedup, List.mem_filter]
  simp only [List.mem_flatMap, Bool.and_eq_true, Bool.not_eq_true', beq_eq_false_iff_ne,
    ne_eq]
  constructor
  · rintro ⟨⟨t, ht, hanc⟩, hroot, hne⟩
    obtain ⟨k, hk, rfl⟩ := properAncestors_mem.mp hanc
    refine ⟨hroot, hne, t, ht, isUnder_take k t, ?_⟩
    rw [List.length_take]
    omega
  · rintro ⟨hroot, hne, t, ht, hunder, hlen⟩
    refine ⟨⟨t, ht, ?_⟩, hroot, hne⟩
    rw [properAncestors_mem]
    refine ⟨i.length, hlen, ?_⟩
    obtain ⟨u, rfl⟩ := (isUnder_iff _ _).mp hunder
    rw [List.take_left]

theorem map_fst_map_pair (g : List ν → Nat) (l : List (List ν)) :
    (l.map (fun a => (a, g a))).map Prod.fst = l := by
  induction l with
  | nil => rfl
  | cons a l ih => simp [ih]

theorem sortNodup {l : List (List ν)} (h : l.Nodup) :
    List.Pairwise (· < ·) (l.insertionSort (· ≤ ·))
      ∧ ∀ x, x ∈ l.insertionSort (· ≤ ·) ↔ x ∈ l := by
  have hperm := List.perm_insertionSort (· ≤ ·) l
  exact ⟨List.Sorted.lt_of_le (List.sorted_insertionSort _ _)
      (hperm.symm.nodup h),
    fun x => hperm.mem_iff⟩

theorem from_paths_establishes (fs : FSModel ν)
    (paths exclude_paths : List (List ν)) (st0 : FSNodeStreamer ν)
    (hcons : FSNodeStreamer.from_paths fs paths exclude_paths = some st0)
    (hwf : ∀ d, (fs.childNames d).Nodup)
    (hnodup : paths.Nodup)
    (hnp : ∀ a b, a ∈ paths → b ∈ paths → isUnder a b = true → a = b) :
    StInv fs st0
      ∧ (∀ x ∈ pendingPaths st0,
          isUnder (sourceRoot paths exclude_paths) x = true)
      ∧ (sourceRoot paths exclude_paths ∉ paths →
          ∀ x ∈ pendingPaths st0, x ≠ sourceRoot paths exclude_paths) := by
  unfold FSNodeStreamer.from_paths at hcons
  by_cases hpres : paths.all (fun p => fs.present p) = true
  · rw [if_pos hpres, Option.some_inj] at hcons
    subst hcons
    have hFnodup : (retainedPaths paths exclude_paths).Nodup :=
      hnodup.filter _
    have hFmem : ∀ x ∈ retainedPaths paths exclude_paths, x ∈ paths :=
      fun x hx => (List.mem_filter.mp hx).1
    have hFfilt : ∀ x ∈ retainedPaths paths exclude_paths,
        filter_path x (exclude_paths.insertionSort (· ≤ ·)) = true :=
      fun x hx => (List.mem_filter.mp hx).2
    have hInodup : (retainedInters paths exclude_paths).Nodup := by
      unfold retainedInters get_intermediate_paths
      exact (List.nodup_dedup _).filter _
    have hIchar : ∀ x ∈ retainedInters paths exclude_paths,
        (isUnder (sourceRoot paths exclude_paths) x = true
            ∧ x ≠ sourceRoot paths exclude_paths
            ∧ ∃ t ∈ retainedPaths paths exclude_paths,
                isUnder x t = true ∧ x.length < t.length)
          ∧ filter_path x (exclude_paths.insertionSort (· ≤ ·)) = true := by
      intro x hx
      unfold retainedInters at hx
      rw [List.mem_filter] at hx
      exact ⟨mem_gip.mp hx.1, hx.2⟩
    obtain ⟨hSsorted, hSmem⟩ := sortNodup hFnodup
    obtain ⟨hIsorted, hImem⟩ := sortNodup hInodup
    refine ⟨⟨hwf, ?_, hSsorted, ?_, ?_, ?_⟩, ?_, ?_⟩
    · intro x hx
      simp only [pendingPaths, map_fst_map_pair, List.mem_append] at hx
      rcases hx with hx | hx
      · exact hFfilt x ((hSmem x).mp hx)
      · exact (hIchar x ((hImem x).mp hx)).2
    · refine hSsorted.imp_of_mem ?_
      intro a b ha hb hlt
      refine Bool.eq_false_iff.mpr (fun hu => ?_)
      have heq : a = b :=
        hnp a b (hFmem a ((hSmem a).mp ha)) (hFmem b ((hSmem b).mp hb)) hu
      rw [heq] at hlt
      exact lt_irrefl b hlt
    · simp only [map_fst_map_pair]
      exact hIsorted
    · intro s hs i hi
      simp only [map_fst_map_pair] at hi
      obtain ⟨⟨hrooti, hnei, t, htF, hit, hlen⟩, _⟩ :=
        hIchar i ((hImem i).mp hi)
      refine Bool.eq_false_iff.mpr (fun hu => ?_)
      have hst : isUnder s t = true := isUnder_trans hu hit
      have heq : s = t :=
        hnp s t (hFmem s ((hSmem s).mp hs)) (hFmem t htF) hst
      have h1 := isUnder_length hu
      rw [heq] at h1
      omega
    · intro x hx
      simp only [pendingPaths, map_fst_map_pair, List.mem_append] at hx
      rcases hx with hx | hx
      · exact calculate_lcp_under _ x ((hSmem x).mp hx)
      · exact (hIchar x ((hImem x).mp hx)).1.1
    · intro hnotin x hx
      simp only [pendingPaths, map_fst_map_pair, List.mem_append] at hx
      rcases hx with hx | hx
      · exact fun heq => hnotin (heq ▸ hFmem x ((hSmem x).mp hx))
      · exact (hIchar x ((hImem x).mp hx)).1.2.1
  · rw [if_neg hpres] at hcons
    exact Option.noConfusion hcons

/-- Claim C5 as amended: for every `FSNodeStreamer` built by `from_paths`
from present, duplicate-free source paths none of which is an initial
segment of another, and for every well-formed filesystem (`read_dir` never
repeats a name inside one directory), every directory's children occur in
the emitted path sequence in strictly increasing name order; and the
computed common root is never emitted provided it is not itself one of the
source paths. -/
theorem claim_C5 (fs : FSModel ν) (paths exclude_paths : List (List ν))
    (st0 : FSNodeStreamer ν)
    (hcons : FSNodeStreamer.from_paths fs paths exclude_paths = some st0)
    (hwf : ∀ d, (fs.childNames d).Nodup)
    (hnodup : paths.Nodup)
    (hnp : ∀ a b, a ∈ paths → b ∈ paths → isUnder a b = true → a = b) :
    (∀ (fuel : Nat) (d : List ν),
        List.Pairwise (· < ·)
          (childNamesIn d (FSNodeStreamer.run fs fuel st0)))
      ∧ (sourceRoot paths exclude_paths ∉ paths →
          ∀ fuel : Nat,
            sourceRoot paths exclude_paths ∉ FSNodeStreamer.run fs fuel st0) := by
  obtain ⟨hinv, hroot, hne⟩ :=
    from_paths_establishes fs paths exclude_paths st0 hcons hwf hnodup hnp
  refine ⟨?_, ?_⟩
  · intro fuel d
    exact childNamesIn_pairwise d _ (run_sorted fs fuel st0 hinv)
  · intro hnotin fuel hmem
    have hstep : ∀ (p : List ν) (a : ν),
        (isUnder (sourceRoot paths exclude_paths) p = true
          ∧ p ≠ sourceRoot paths exclude_paths) →
        (isUnder (sourceRoot paths exclude_paths) (p ++ [a]) = true
          ∧ p ++ [a] ≠ sourceRoot paths exclude_paths) := by
      rintro p a ⟨hu, _⟩
      refine ⟨isUnder_trans hu (isUnder_append_self p [a]), fun heq => ?_⟩
      have h1 := isUnder_length hu
      have h2 : (p ++ [a]).length = p.length + 1 := by simp
      rw [heq] at h2
      omega
    have hbase : ∀ x ∈ pendingPaths st0,
        isUnder (sourceRoot paths exclude_paths) x = true
          ∧ x ≠ sourceRoot paths exclude_paths :=
      fun x hx => ⟨hroot x hx, hne hnotin x hx⟩
    have hq := run_closed fs
      (fun x => isUnder (sourceRoot paths exclude_paths) x = true
        ∧ x ≠ sourceRoot paths exclude_paths)
      hstep fuel st0 hinv hbase (sourceRoot paths exclude_paths) hmem
    exact hq.2 rfl

theorem next_stack_nondir (fs : FSModel ν) (st : FSNodeStreamer ν)
    (p : List ν) (rest : List (List ν)) (ivs : List (List ν × Nat))
    (hsel : selectNext st.exclude st.inters st.stack
      = some (false, ivs, p :: rest))
    (hdir : fs.is_dir p = false) :
    FSNodeStreamer.next fs st
      = some ((p, 0), { st with inters := ivs, stack := rest }) := by
  unfold FSNodeStreamer.next
  rw [hsel]
  simp [hdir]

/-- Claim C5 counterexample to the unconditional root suppression: with the
single present source path `[0]`, `from_paths` succeeds, the computed
common root equals that source path `[0]`, and the streamer emits exactly
`[0]` — the root itself is an emitted item whenever the root coincides
with a source path. -/
theorem claim_C5_counterexample :
    FSNodeStreamer.from_paths fsToy [[0]] []
        = some { stack := [[0]], inters := [], exclude := [] }
      ∧ sourceRoot [[0]] ([] : List (List Nat)) = [0]
      ∧ FSNodeStreamer.run fsToy 1
          { stack := [[0]], inters := [], exclude := [] } = [[0]] := by
  refine ⟨rfl, rfl, ?_⟩
  have hsel : selectNext ([] : List (List Nat))
      ([] : List (List Nat × Nat)) [[0]] = some (false, [], [[0]]) :=
    selectNext_nil_cons _ _ _ rfl
  have hnext := next_stack_nondir fsToy
    { stack := [[0]], inters := [], exclude := [] } [0] [] [] hsel rfl
  have h1 : (1 : Nat) = 0 + 1 := rfl
  rw [h1, FSNodeStreamer.run, hnext]
  rfl

theorem claim_C5_witness :
    (∀ (fuel : Nat) (d : List Nat),
        List.Pairwise (· < ·)
          (childNamesIn d (FSNodeStreamer.run fsToy fuel
            { stack := [[0]], inters := [], exclude := [] })))
      ∧ (sourceRoot [[0]] ([] : List (List Nat)) ∉ [[0]] →
          ∀ fuel : Nat,
            sourceRoot [[0]] ([] : List (List Nat))
              ∉ FSNodeStreamer.run fsToy fuel
                  { stack := [[0]], inters := [], exclude := [] }) :=
  claim_C5 fsToy [[0]] []
    { stack := [[0]], inters := [], exclude := [] } rfl
    (fun _ => List.nodup_nil) (by simp)
    (fun a b ha hb _ => by
      rw [List.mem_singleton.mp ha, List.mem_singleton.mp hb])

end StreamerOrder

end Backup

